import Mathlib

/-!
Shallow embedding of the git-trivia identity-resolution and aggregation core
(src/person.rs, src/ownership.rs, src/tree_walker.rs, src/configuration.rs,
src/main.rs), together with theorems settling the specification claims.

Modelling conventions:
* Rust `String` / `Email(String)` become Lean `String` (the `Email` newtype
  only wraps a string and compares by value).
* `HashSet<Email>` inside a `Person` becomes a `List String` kept duplicate
  free by `add_email` (insert-if-absent), matching set semantics.
* `HashMap<Email, usize>` becomes an association list `List (String × Nat)`
  read through `List.lookup`; `HashMap::insert` is modelled by consing, so
  the newest binding wins, which matches overwrite semantics.
* `&mut self` methods become functions returning the updated state; a
  fallible `&mut self` method returns the pair of the state after the call
  and an optional error, so "the registry is left unchanged on failure" is a
  provable statement rather than a modelling artifact.
* Rust panics (`unwrap`, `unreachable!`) are modelled as a distinguished
  `panicked` outcome, kept apart from the `Result`-carried errors.
-/

namespace GitTrivia

/-- Error taxonomy from `src/main.rs` (`error_chain` block): the variants the
core can produce, plus a constructor for errors surfaced unchanged from the
git backend. -/
inductive TriviaError where
  | unknownEmail (email : String)
  | conflictingEmail (nameA : String) (nameB : String) (email : String)
  | gitError (msg : String)
  | noCommits
  deriving DecidableEq, Repr

/-- `git2::Signature`: author name and email are both optional. -/
structure Signature where
  name : Option String
  email : Option String
  deriving DecidableEq, Repr

/-- `Person` from src/person.rs: display name, set of emails, optional team
name.  `emails` models `HashSet<Email>` as a duplicate-free list. -/
structure Person where
  name : String
  emails : List String
  team_name : Option String
  deriving DecidableEq, Repr

/-- `Person::new`: fresh person with no emails and no team. -/
def Person.new (name : String) : Person :=
  { name := name, emails := [], team_name := none }

/-- `Person::add_email`: `HashSet::insert` — add the email unless already
present. -/
def Person.add_email (p : Person) (email : String) : Person :=
  if p.emails.contains email then p else { p with emails := email :: p.emails }

/-- `Person::has_email`: membership in the email set. -/
def Person.has_email (p : Person) (email : String) : Bool :=
  p.emails.contains email

/-- `PeopleDatabase` from src/person.rs: the ordered person list plus the
email → index lookup table. -/
structure PeopleDatabase where
  people : List Person
  lookup : List (String × Nat)
  deriving DecidableEq, Repr

/-- `PeopleDatabase::new` / `Default`. -/
def PeopleDatabase.new : PeopleDatabase :=
  { people := [], lookup := [] }

/-- `PeopleDatabase::has_email`: `lookup.contains_key(email)`. -/
def PeopleDatabase.has_email (db : PeopleDatabase) (email : String) : Bool :=
  (db.lookup.lookup email).isSome

/-- `PeopleDatabase::find_by_email`:
`lookup.get(email).and_then(|i| people.get(i)).ok_or(UnknownEmail)`. -/
def PeopleDatabase.find_by_email (db : PeopleDatabase) (email : String) :
    Except TriviaError Person :=
  match db.lookup.lookup email with
  | some i =>
    match db.people[i]? with
    | some p => .ok p
    | none => .error (.unknownEmail email)
  | none => .error (.unknownEmail email)

/-- `PeopleDatabase::find_by_signature`: resolve
`signature.email().unwrap_or("")`, ignoring the signature's name. -/
def PeopleDatabase.find_by_signature (db : PeopleDatabase) (sig : Signature) :
    Except TriviaError Person :=
  db.find_by_email (sig.email.getD "")

/-- `PeopleDatabase::insert_person`: index every email of the person at
`people.len()`, then push the person. -/
def PeopleDatabase.insert_person (db : PeopleDatabase) (p : Person) :
    PeopleDatabase :=
  { people := db.people ++ [p],
    lookup := p.emails.foldl (fun l e => (e, db.people.length) :: l) db.lookup }

/-- `PeopleDatabase::add_person`: scan the candidate's emails for one already
indexed; on a conflict report `ConflictingEmail(existing, new, email)` and
leave the state untouched, otherwise insert.  Returned as (state after the
call, optional error), mirroring the `&mut self` method. -/
def PeopleDatabase.add_person (db : PeopleDatabase) (p : Person) :
    PeopleDatabase × Option TriviaError :=
  match p.emails.find? (fun e => db.has_email e) with
  | none => (db.insert_person p, none)
  | some email =>
    match db.find_by_email email with
    | .ok existing =>
      (db, some (.conflictingEmail existing.name p.name email))
    | .error e => (db, some e)

/-- Fold a list of persons through successful `add_person` calls, failing
(`none`) as soon as one add reports a conflict.  `some db` means `db` was
built from the start state by successful adds only. -/
def addAllOk : PeopleDatabase → List Person → Option PeopleDatabase
  | db, [] => some db
  | db, p :: rest =>
    match db.add_person p with
    | (db', none) => addAllOk db' rest
    | (_, some _) => none

/-! ### Attribution accumulators (src/person.rs, tracking section)

`HashMap<&Person, T>` hashes and compares persons by display name only
(`impl Hash for Person` / `impl PartialEq for Person` both use `name`), so
the person accumulator is keyed by name equality.  `HashMap` slots are
modelled as association lists; `entry(k).or_insert_with(default)` followed by
the caller's mutation becomes: update the (unique) matching entry in place,
or append a fresh `f default` entry.  Rust's `T: Default` becomes
`[Inhabited T]`. -/

/-- `entry(k).or_insert_with(Default::default)` followed by applying `f` to
the returned mutable slot, for an association list under the key-equality
test `eq`. -/
def updateEntry {K V : Type} (eq : K → K → Bool) (l : List (K × V))
    (k : K) (dflt : V) (f : V → V) : List (K × V) :=
  if l.any (fun pr => eq pr.1 k) then
    l.map (fun pr => if eq pr.1 k then (pr.1, f pr.2) else pr)
  else
    l ++ [(k, f dflt)]

/-- `PeopleTracking<T>`: per-person accumulator, keyed by person (name
equality). -/
structure PeopleTracking (T : Type) where
  lookup : List (Person × T)
  deriving DecidableEq, Repr

/-- `PeopleTracking::new` / `Default`: empty map. -/
def PeopleTracking.new {T : Type} : PeopleTracking T :=
  { lookup := [] }

/-- `PeopleTracking::for_person(person)` followed by the caller applying a
mutation `f` to the returned `&mut T`. -/
def PeopleTracking.track {T : Type} [Inhabited T] (t : PeopleTracking T)
    (p : Person) (f : T → T) : PeopleTracking T :=
  { lookup := updateEntry (fun a b => a.name == b.name) t.lookup p default f }

/-- `PeopleTracking::person_value`: `lookup.get(person)` (name equality). -/
def PeopleTracking.person_value {T : Type} (t : PeopleTracking T)
    (p : Person) : Option T :=
  (t.lookup.find? (fun pr => pr.1.name == p.name)).map (fun pr => pr.2)

/-- `TeamTracking<T>`: the always-present unaffiliated slot plus a map keyed
by team name. -/
structure TeamTracking (T : Type) where
  no_team : T
  lookup : List (String × T)
  deriving DecidableEq, Repr

/-- `TeamTracking::new` / `Default`: default unaffiliated slot, empty map. -/
def TeamTracking.new {T : Type} [Inhabited T] : TeamTracking T :=
  { no_team := default, lookup := [] }

/-- `TeamTracking::for_person` followed by the caller's mutation: route to
the team slot when the person has a team, else to the unaffiliated slot. -/
def TeamTracking.track {T : Type} [Inhabited T] (t : TeamTracking T)
    (p : Person) (f : T → T) : TeamTracking T :=
  match p.team_name with
  | some name =>
    { t with lookup := updateEntry (fun a b => a == b) t.lookup name default f }
  | none => { t with no_team := f t.no_team }

/-- `TeamTracking::team_value`. -/
def TeamTracking.team_value {T : Type} (t : TeamTracking T)
    (team_name : String) : Option T :=
  (t.lookup.find? (fun pr => pr.1 == team_name)).map (fun pr => pr.2)

/-- `CombinedTracking<T>`: one person accumulator and one team
accumulator. -/
structure CombinedTracking (T : Type) where
  people_tracking : PeopleTracking T
  team_tracking : TeamTracking T
  deriving DecidableEq, Repr

/-- `CombinedTracking::new` / `Default`. -/
def CombinedTracking.new {T : Type} [Inhabited T] : CombinedTracking T :=
  { people_tracking := PeopleTracking.new, team_tracking := TeamTracking.new }

/-- `CombinedTracking::track_person(person, func)`: apply the same mutation
to the person slot and to the team-level slot. -/
def CombinedTracking.track_person {T : Type} [Inhabited T]
    (c : CombinedTracking T) (p : Person) (f : T → T) : CombinedTracking T :=
  { people_tracking := c.people_tracking.track p f,
    team_tracking := c.team_tracking.track p f }

/-- `CombinedTracking::person_value`. -/
def CombinedTracking.person_value {T : Type} (c : CombinedTracking T)
    (p : Person) : Option T :=
  c.people_tracking.person_value p

/-- `CombinedTracking::team_value`. -/
def CombinedTracking.team_value {T : Type} (c : CombinedTracking T)
    (team_name : String) : Option T :=
  c.team_tracking.team_value team_name

/-- `CombinedTracking::no_team_value`. -/
def CombinedTracking.no_team_value {T : Type} (c : CombinedTracking T) : T :=
  c.team_tracking.no_team

/-- Track the same person `n` times with mutation `f`, from accumulator
`c`. -/
def trackN {T : Type} [Inhabited T] (c : CombinedTracking T) (p : Person)
    (f : T → T) : Nat → CombinedTracking T
  | 0 => c
  | n + 1 => (trackN c p f n).track_person p f

/-! ### Ownership statistics (src/ownership.rs) -/

/-- `OwnershipScore`: line counter; `Default` is zero. -/
structure OwnershipScore where
  total_lines_owned : Nat
  deriving DecidableEq, Repr

instance : Inhabited OwnershipScore := ⟨{ total_lines_owned := 0 }⟩

/-- `OwnershipScore::add_hunk`: add the hunk's line count. -/
def OwnershipScore.add_lines (s : OwnershipScore) (lines : Nat) :
    OwnershipScore :=
  { total_lines_owned := s.total_lines_owned + lines }

/-- `OwnershipStatistics`: total line count plus the finished accumulator. -/
structure OwnershipStatistics where
  total_lines : Nat
  combined_tracking : CombinedTracking OwnershipScore
  deriving DecidableEq, Repr

/-- `OwnershipStatistics::from_tracking`: the total is the sum of the line
counts over the person entries (`people_iter`). -/
def OwnershipStatistics.from_tracking (owners : CombinedTracking OwnershipScore) :
    OwnershipStatistics :=
  { total_lines :=
      (owners.people_tracking.lookup.map
        (fun pr => pr.2.total_lines_owned)).sum,
    combined_tracking := owners }

/-- `OwnershipStatistics::total_lines`. -/
def OwnershipStatistics.totalLines (s : OwnershipStatistics) : Nat :=
  s.total_lines

/-- Feed a list of `(person, lineCount)` attribution events through
`track_person` with the line-count-increment mutation, starting from a fresh
accumulator (the orchestrator's usage pattern). -/
def trackEvents (events : List (Person × Nat)) :
    CombinedTracking OwnershipScore :=
  events.foldl
    (fun c ev => c.track_person ev.1 (fun s => s.add_lines ev.2))
    CombinedTracking.new

/-! ### Tree walker (src/tree_walker.rs)

A git tree is modelled inductively: a tree entry is a name together with the
object its oid resolves to.  A `blob` entry carries `Option Blob`: `none`
models an oid whose object cannot be retrieved from the object database
(`repo.find_blob` fails), which is invisible to the walker (the entry still
has Blob kind) but makes `Entry::blob` return `None`.  The `other`
constructor models a tree entry whose kind is neither Tree nor Blob (e.g. a
submodule commit).  `Tree::get(i)`-style child-tree resolution
(`repo.find_tree`) is modelled as always succeeding, since the subtree is
stored inline. -/

/-- `git2::Blob`, reduced to the only field the core reads. -/
structure Blob where
  is_binary : Bool
  deriving DecidableEq, Repr

/-- A git object as seen through a tree entry. -/
inductive GitObject where
  | blob (odb : Option Blob)
  | tree (entries : List (String × GitObject))
  | other
  deriving Repr

/-- `EntryKind` from src/tree_walker.rs. -/
inductive EntryKind where
  | file
  | directory
  deriving DecidableEq, Repr

/-- `Entry` from src/tree_walker.rs: full relative path (as segments), kind,
and the object the entry's id resolves to (standing in for the stored
`Oid`). -/
structure Entry where
  path : List String
  kind : EntryKind
  obj : GitObject
  deriving Repr

/-- `Entry::new`: classify the tree entry's kind; a kind that is neither
Tree nor Blob hits `unreachable!(...)` — modelled as a panic message. -/
def Entry.new (path : List String) (name : String) (obj : GitObject) :
    Except String Entry :=
  match obj with
  | .tree es => .ok { path := path ++ [name], kind := .directory, obj := .tree es }
  | .blob b => .ok { path := path ++ [name], kind := .file, obj := .blob b }
  | .other => .error "Tree entries should always be either Trees or Blobs"

/-- `Entry::blob`: for File entries, fetch the blob from the object database
(`repo.find_blob(self.id).ok()`); `none` when retrieval fails or the entry
is a directory. -/
def Entry.blobGet (e : Entry) : Option Blob :=
  match e.kind, e.obj with
  | .file, .blob b => b
  | _, _ => none

/-- `Entry::tree`: for Directory entries, resolve the subtree. -/
def Entry.treeGet (e : Entry) : Option (List (String × GitObject)) :=
  match e.kind, e.obj with
  | .directory, .tree es => some es
  | _, _ => none

/-- `TreeWalker` state.  The Rust struct keeps `tree_stack` and
`cursor_stack` as two `Vec`s pushed and popped in lockstep; they are
modelled as one stack of `(tree entries, next-child index)` frames, head =
top of stack.  `path_stack : PathBuf` becomes the list of path segments,
pushed at the end and popped from the end. -/
structure TreeWalker where
  frames : List (List (String × GitObject) × Nat)
  path_stack : List String

/-- `TreeWalker::new`: one frame over the root tree at cursor 0, empty
path. -/
def TreeWalker.new (tree : List (String × GitObject)) : TreeWalker :=
  { frames := [(tree, 0)], path_stack := [] }

/-- Outcome of one `TreeWalker::next` call: iteration finished, a panic from
`Entry::new`, or a yielded entry together with the successor state. -/
inductive Step where
  | done
  | panicked (msg : String)
  | yield (e : Entry) (w : TreeWalker)

/-- `TreeWalker::next` on explicit stacks: an empty stack ends the
iteration; an in-range cursor yields the entry (after restoring the advanced
frame, and pushing a subtree frame plus path segment for directories); an
exhausted frame pops the path segment and retries on the remaining stack. -/
def nextAux : List (List (String × GitObject) × Nat) → List String → Step
  | [], _ => .done
  | (entries, i) :: rest, path =>
    if h : i < entries.length then
      match Entry.new path (entries.get ⟨i, h⟩).1 (entries.get ⟨i, h⟩).2 with
      | .error msg => .panicked msg
      | .ok entry =>
        match entry.treeGet with
        | some sub =>
          .yield entry
            ⟨(sub, 0) :: (entries, i + 1) :: rest,
             path ++ [(entries.get ⟨i, h⟩).1]⟩
        | none => .yield entry ⟨(entries, i + 1) :: rest, path⟩
    else
      nextAux rest path.dropLast

/-- `TreeWalker::next`. -/
def TreeWalker.next (w : TreeWalker) : Step :=
  nextAux w.frames w.path_stack

mutual

/-- Weight of an object: 1 for the entry itself plus the weights of a
tree's children.  Termination measure for running the walker. -/
def objWeight : GitObject → Nat
  | .blob _ => 1
  | .other => 1
  | .tree es => 1 + entriesWeight es

/-- Summed weights of an entry list. -/
def entriesWeight : List (String × GitObject) → Nat
  | [] => 0
  | (_, o) :: rest => objWeight o + entriesWeight rest

end

/-- Remaining weight of a walker frame: the entries not yet visited. -/
def frameWeight : List (String × GitObject) × Nat → Nat
  | (entries, i) => entriesWeight (entries.drop i)

/-- Remaining weight of a whole walker state. -/
def walkerMeasure (w : TreeWalker) : Nat :=
  (w.frames.map frameWeight).sum

/-- Remaining weight plus frame count for a raw frame stack. -/
def boundOf (frames : List (List (String × GitObject) × Nat)) : Nat :=
  2 * (frames.map frameWeight).sum + frames.length

/-- Fuel bound for running the walker to completion: every yielded entry
strictly decreases `2 * walkerMeasure + frames.length`, and exhausted frames
are skipped inside a single `next` call, so this many pulls always reach the
end of the iteration (proved below). -/
def walkerBound (w : TreeWalker) : Nat :=
  boundOf w.frames

/-- Pull the iterator up to `fuel` times, collecting yielded entries, and
stopping at the end of iteration or at a panic. -/
def runFuel : Nat → TreeWalker → Except String (List Entry)
  | 0, _ => .ok []
  | fuel + 1, w =>
    match w.next with
    | .done => .ok []
    | .panicked msg => .error msg
    | .yield e w' => (runFuel fuel w').map (fun l => e :: l)

/-- Run the walker to completion (collect the whole iteration, as the
orchestrator's `count()` and `for` loop do): `walkerBound` fuel always
suffices. -/
def runWalker (w : TreeWalker) : Except String (List Entry) :=
  runFuel (walkerBound w) w

mutual

/-- Specification of the traversal order, following the spec's words: an
entry before its children (pre-order), children in stored order.  Yields the
entry for one named object. -/
def preorderObj (path : List String) (name : String) : GitObject → List Entry
  | .blob b => [{ path := path ++ [name], kind := .file, obj := .blob b }]
  | .tree es =>
    { path := path ++ [name], kind := .directory, obj := .tree es }
      :: preorderEntries (path ++ [name]) es
  | .other => []

/-- Pre-order listing of an entry list under a path prefix. -/
def preorderEntries (path : List String) :
    List (String × GitObject) → List Entry
  | [] => []
  | (name, o) :: rest => preorderObj path name o ++ preorderEntries path rest

end

mutual

/-- Well-kinded object: no tree entry anywhere has a kind other than Tree
or Blob. -/
def objOk : GitObject → Bool
  | .blob _ => true
  | .other => false
  | .tree es => entriesOk es

/-- All entries of a list are well-kinded. -/
def entriesOk : List (String × GitObject) → Bool
  | [] => true
  | (_, o) :: rest => objOk o && entriesOk rest

end

/-- The entries a walker state has yet to produce: for each frame, the
pre-order listing of its unvisited entries, with one path segment dropped
per enclosing frame. -/
def stateOutput : List (List (String × GitObject) × Nat) → List String →
    List Entry
  | [], _ => []
  | (entries, i) :: rest, path =>
    preorderEntries path (entries.drop i) ++ stateOutput rest path.dropLast

/-- All frames of a walker stack hold well-kinded unvisited entries. -/
def framesOk : List (List (String × GitObject) × Nat) → Bool
  | [] => true
  | (entries, i) :: rest => entriesOk (entries.drop i) && framesOk rest

/-! ### Ownership calculation orchestrator (src/ownership.rs `calculate`) -/

/-- A blame hunk: originating signature and `lines_in_hunk`. -/
structure Hunk where
  sig : Signature
  lines : Nat
  deriving DecidableEq, Repr

/-- Outcome of a calculation pass: either an error carried through the
`Result` type, or a panic (`unwrap` on `None` / `unreachable!`). -/
inductive CalcFailure where
  | err (e : TriviaError)
  | panicked (msg : String)
  deriving DecidableEq, Repr

/-- The inner hunk loop of `calculate`: resolve each hunk's author through
the registry (`?` propagates the failure immediately) and track the score
into the accumulator. -/
def processHunks (db : PeopleDatabase) :
    CombinedTracking OwnershipScore → List Hunk →
    Except TriviaError (CombinedTracking OwnershipScore)
  | owners, [] => .ok owners
  | owners, h :: rest =>
    match db.find_by_signature h.sig with
    | .error e => .error e
    | .ok person =>
      processHunks db
        (owners.track_person person (fun s => s.add_lines h.lines)) rest

/-- One `for entry in TreeWalker` loop body of `calculate`:
`entry.is_file() && !entry.blob(repo).unwrap().is_binary()` — the `unwrap`
panics when the blob cannot be retrieved — then `repo.blame_file(..)?`
propagates git errors, then the hunk loop runs.  `blame` is the
version-control backend's blame computation for a path. -/
def processEntry (db : PeopleDatabase)
    (blame : List String → Except String (List Hunk))
    (owners : CombinedTracking OwnershipScore) (entry : Entry) :
    Except CalcFailure (CombinedTracking OwnershipScore) :=
  if entry.kind == .file then
    match entry.blobGet with
    | none => .error (.panicked "called Option::unwrap on a None value")
    | some b =>
      if b.is_binary then .ok owners
      else
        match blame entry.path with
        | .error g => .error (.err (.gitError g))
        | .ok hunks =>
          match processHunks db owners hunks with
          | .error e => .error (.err e)
          | .ok owners2 => .ok owners2
  else .ok owners

/-- Fold the loop body over the walker's entries, aborting on the first
failure. -/
def processEntries (db : PeopleDatabase)
    (blame : List String → Except String (List Hunk)) :
    CombinedTracking OwnershipScore → List Entry →
    Except CalcFailure (CombinedTracking OwnershipScore)
  | owners, [] => .ok owners
  | owners, e :: rest =>
    match processEntry db blame owners e with
    | .error f => .error f
    | .ok owners2 => processEntries db blame owners2 rest

/-- `calculate`: one full pass over the commit's tree.  The Rust code first
runs `TreeWalker::new(..).count()` for the progress bar — a full traversal,
so a traversal panic surfaces before any blaming — then traverses again for
the real work; since the walker is deterministic the model traverses once
and folds over the collected entries. -/
def calculate (tree : List (String × GitObject)) (db : PeopleDatabase)
    (blame : List String → Except String (List Hunk)) :
    Except CalcFailure OwnershipStatistics :=
  match runWalker (TreeWalker.new tree) with
  | .error msg => .error (.panicked msg)
  | .ok entries =>
    match processEntries db blame CombinedTracking.new entries with
    | .error f => .error f
    | .ok owners => .ok (OwnershipStatistics.from_tracking owners)

/-- The hunks a completed pass feeds through the registry: those of
non-binary file entries whose blob was retrieved and whose blame succeeded
(used to state the abort policy under a healthy backend). -/
def entryHunks (blame : List String → Except String (List Hunk))
    (entry : Entry) : List Hunk :=
  if entry.kind == .file then
    match entry.blobGet with
    | none => []
    | some b =>
      if b.is_binary then []
      else
        match blame entry.path with
        | .error _ => []
        | .ok hunks => hunks
  else []

/-- All hunks a pass processes, in processing order: concatenation of the
per-entry hunk lists. -/
def allHunks (blame : List String → Except String (List Hunk))
    (entries : List Entry) : List Hunk :=
  (entries.map (entryHunks blame)).flatten

/-! ### Configuration and its builder (src/configuration.rs) -/

/-- `Configuration`: checkpoint sha plus the person list. -/
structure Configuration where
  generated_at_sha : String
  people : List Person
  deriving DecidableEq, Repr

/-- `Configuration::people_db`: add every configured person to a fresh
database; the first conflict aborts.  Modelled on `addAllOk` (`none` = some
add failed). -/
def Configuration.people_db (c : Configuration) : Option PeopleDatabase :=
  addAllOk PeopleDatabase.new c.people

/-- `ConfigurationBuilder`: optional checkpoint sha, seen-email set
(`HashSet<String>`), and the name → person map (`HashMap<String, Person>`,
modelled as an association list: update in place, append when absent). -/
structure ConfigurationBuilder where
  generated_at_sha : Option String
  seen_emails : List String
  people_by_name : List (String × Person)
  deriving DecidableEq, Repr

/-- `ConfigurationBuilder::new` / `Default`. -/
def ConfigurationBuilder.new : ConfigurationBuilder :=
  { generated_at_sha := none, seen_emails := [], people_by_name := [] }

/-- `ConfigurationBuilder::set_latest_commit_sha`. -/
def ConfigurationBuilder.set_latest_commit_sha (b : ConfigurationBuilder)
    (sha : String) : ConfigurationBuilder :=
  { b with generated_at_sha := some sha }

/-- `ConfigurationBuilder::add_author`: skip records without an email; skip
emails already seen; skip records without a name; otherwise mark the email
seen and add it to the (possibly fresh) person under that name. -/
def ConfigurationBuilder.add_author (b : ConfigurationBuilder)
    (author : Signature) : ConfigurationBuilder :=
  match author.email with
  | none => b
  | some email =>
    if b.seen_emails.contains email then b
    else
      match author.name with
      | none => b
      | some name =>
        { b with
          seen_emails := email :: b.seen_emails,
          people_by_name :=
            updateEntry (fun a b => a == b) b.people_by_name name
              (Person.new name) (fun p => p.add_email email) }

/-- The builder step with the seen-email deduplication removed, following
the spec's words in the refinement claim that calls the seen set a pure
speed optimization: identical to `add_author` except that the
`seen_emails.contains` check (and the bookkeeping of the set) is gone. -/
def ConfigurationBuilder.add_author_unseen (b : ConfigurationBuilder)
    (author : Signature) : ConfigurationBuilder :=
  match author.email with
  | none => b
  | some email =>
    match author.name with
    | none => b
    | some name =>
      { b with
        people_by_name :=
          updateEntry (fun a b => a == b) b.people_by_name name
            (Person.new name) (fun p => p.add_email email) }

/-- Lexicographic order on char lists by scalar value: the order underlying
`String::cmp` (UTF-8 byte order coincides with scalar-value order). -/
def charListLe : List Char → List Char → Bool
  | [], _ => true
  | _ :: _, [] => false
  | c :: cs, d :: ds =>
    if c.val < d.val then true
    else if d.val < c.val then false
    else charListLe cs ds

/-- String order used for sorting persons by display name. -/
def strLe (a b : String) : Bool := charListLe a.data b.data

/-- Insert a person into a name-sorted list (helper for `sortPeople`). -/
def insertSorted (p : Person) : List Person → List Person
  | [] => [p]
  | q :: rest =>
    if strLe p.name q.name then p :: q :: rest else q :: insertSorted p rest

/-- `Vec::sort` on persons (`Ord for Person` compares display names),
modelled as a deterministic insertion sort by name.  The builder's map has
one entry per name, so the name-sorted permutation is unique and any
deterministic sort by name produces the same list as Rust's stable sort. -/
def sortPeople : List Person → List Person
  | [] => []
  | p :: rest => insertSorted p (sortPeople rest)

/-- `ConfigurationBuilder::into_configuration`: requires the checkpoint sha
(`bail!("Repository has no commit yet")` otherwise, modelled as the
`noCommits` error), drains the person map and sorts by display name. -/
def ConfigurationBuilder.into_configuration (b : ConfigurationBuilder) :
    Except TriviaError Configuration :=
  match b.generated_at_sha with
  | none => .error .noCommits
  | some sha =>
    .ok { generated_at_sha := sha,
          people := sortPeople (b.people_by_name.map (fun pr => pr.2)) }

/-- A fresh build (`generate_initial_config` in src/main.rs): new builder,
set the checkpoint sha, fold in the authorship records. -/
def buildFresh (sha : String) (records : List Signature) :
    ConfigurationBuilder :=
  records.foldl ConfigurationBuilder.add_author
    (ConfigurationBuilder.new.set_latest_commit_sha sha)

/-- A fresh build through the variant without the seen-email set. -/
def buildFreshUnseen (sha : String) (records : List Signature) :
    ConfigurationBuilder :=
  records.foldl ConfigurationBuilder.add_author_unseen
    (ConfigurationBuilder.new.set_latest_commit_sha sha)

/-- Every alias appears under at most one usable display name across the
record sequence. -/
def nameCoherent (records : List Signature) : Prop :=
  ∀ r1 ∈ records, ∀ r2 ∈ records,
    r1.email = r2.email → r1.email ≠ none →
    r1.name ≠ none → r2.name ≠ none → r1.name = r2.name

/-- The builder's internal consistency: the seen set is exactly the set of
emails attached to some person, every (key, email) pair in the map came from
a record of the history `L`, and the map has one entry per name. -/
def BuilderInv (L : List Signature) (b : ConfigurationBuilder) : Prop :=
  (∀ e, e ∈ b.seen_emails ↔
      ∃ pr ∈ b.people_by_name, pr.2.has_email e = true)
  ∧ (∀ pr ∈ b.people_by_name, ∀ e, pr.2.has_email e = true →
      ∃ r ∈ L, r.name = some pr.1 ∧ r.email = some e)
  ∧ b.people_by_name.Pairwise (fun a b => a.1 ≠ b.1)

instance (records : List Signature) : Decidable (nameCoherent records) := by
  unfold nameCoherent
  infer_instance

/-- Well-formed database: every index stored in the lookup table points into
the person list.  Holds for every database built by `add_person` from
`new`. -/
def PeopleDatabase.wf (db : PeopleDatabase) : Prop :=
  ∀ pr ∈ db.lookup, pr.2 < db.people.length

instance (db : PeopleDatabase) : Decidable db.wf := by
  unfold PeopleDatabase.wf
  infer_instance

/-- Sum of line counts over the person entries. -/
def personLinesSum (l : List (Person × OwnershipScore)) : Nat :=
  (l.map (fun pr => pr.2.total_lines_owned)).sum

/-- Distinct person keys (the HashMap invariant: one slot per name). -/
def namesDistinct (l : List (Person × OwnershipScore)) : Prop :=
  l.Pairwise (fun a b => a.1.name ≠ b.1.name)

/-! ### Concrete example data (used to instantiate the theorems) -/

/-- Example person with two aliases and no team. -/
def janeW : Person :=
  { name := "Jane Doe", emails := ["jane@x.com", "jane2@x.com"],
    team_name := none }

/-- Example person whose alias collides with `janeW`. -/
def joeW : Person :=
  { name := "Joe", emails := ["jane@x.com"], team_name := some "T1" }

/-- Example person with a team and a disjoint alias. -/
def johnW : Person :=
  { name := "John", emails := ["john@x.com"], team_name := some "T1" }

/-- Example person owning the empty-string alias. -/
def emptyAliasW : Person :=
  { name := "Empty", emails := [""], team_name := none }

/-- The spec's Scenario B tree: `root/{a.txt, dir/{b.txt, subdir/{c.txt}}}`. -/
def exTree : List (String × GitObject) :=
  [("a.txt", .blob (some { is_binary := false })),
   ("dir", .tree
     [("b.txt", .blob (some { is_binary := false })),
      ("subdir", .tree
        [("c.txt", .blob (some { is_binary := false }))])])]

/-- The entries the walker yields over `exTree` (pre-order). -/
def exEntries : List Entry :=
  [{ path := ["a.txt"], kind := .file,
     obj := .blob (some { is_binary := false }) },
   { path := ["dir"], kind := .directory,
     obj := .tree
       [("b.txt", .blob (some { is_binary := false })),
        ("subdir", .tree
          [("c.txt", .blob (some { is_binary := false }))])] },
   { path := ["dir", "b.txt"], kind := .file,
     obj := .blob (some { is_binary := false }) },
   { path := ["dir", "subdir"], kind := .directory,
     obj := .tree [("c.txt", .blob (some { is_binary := false }))] },
   { path := ["dir", "subdir", "c.txt"], kind := .file,
     obj := .blob (some { is_binary := false }) }]

/-- Registry holding only `janeW` (used by the calculation examples). -/
def dbJane : PeopleDatabase := (PeopleDatabase.new.add_person janeW).1

/-- Example blame backend: every file is attributed to `jane@x.com`,
10 lines. -/
def blameJane : List String → Except String (List Hunk) :=
  fun _ => .ok [{ sig := { name := some "Jane Doe", email := some "jane@x.com" },
                  lines := 10 }]

/-- Example blame backend attributing every file to an unregistered alias. -/
def blameUnknown : List String → Except String (List Hunk) :=
  fun _ => .ok [{ sig := { name := some "Zed", email := some "zed@x.com" },
                  lines := 4 }]

/-- Example blame backend that always fails with a git error. -/
def blameFail : List String → Except String (List Hunk) :=
  fun _ => .error "object not found"

/-- Registry holding `janeW` and `johnW`. -/
def dbJaneJohn : PeopleDatabase := (dbJane.add_person johnW).1

/-- Registry holding only the owner of the empty-string alias. -/
def dbEmptyAlias : PeopleDatabase :=
  (PeopleDatabase.new.add_person emptyAliasW).1

/-- Authorship records for the builder examples: one nameless record, and
one alias appearing under two names. -/
def recordsNoName : List Signature :=
  [{ name := none, email := some "x@y.com" }]

/-- The same alias under two different names. -/
def recordsTwoNames : List Signature :=
  [{ name := some "A", email := some "e@x.com" },
   { name := some "B", email := some "e@x.com" }]

/-- Records where every alias appears under a single name. -/
def recordsCoherent : List Signature :=
  [{ name := some "Jane Doe", email := some "jane@x.com" },
   { name := some "John Doe", email := some "john@x.com" },
   { name := some "Jane Doe", email := some "jane@x.com" },
   { name := some "Jane Doe", email := some "jane2@x.com" },
   { name := none, email := some "ghost@x.com" }]

/-! ### Registry lemmas -/

theorem lookup_foldl (es : List String) (n : Nat)
    (acc : List (String × Nat)) (e : String) :
    List.lookup e (es.foldl (fun l x => (x, n) :: l) acc) =
      if e ∈ es then some n else List.lookup e acc := by
  induction es generalizing acc with
  | nil => simp
  | cons a tail ih =>
    simp only [List.foldl_cons, ih, List.mem_cons]
    by_cases hta : e ∈ tail
    · simp [hta]
    · by_cases hea : e = a
      · simp [hea, hta, List.lookup]
      · simp [hea, hta, List.lookup, beq_false_of_ne hea]

theorem insert_lookup (db : PeopleDatabase) (p : Person) (e : String) :
    List.lookup e (db.insert_person p).lookup =
      if e ∈ p.emails then some db.people.length else List.lookup e db.lookup :=
  lookup_foldl p.emails db.people.length db.lookup e

theorem mem_of_lookup {l : List (String × Nat)} {k : String} {v : Nat}
    (h : l.lookup k = some v) : (k, v) ∈ l := by
  obtain ⟨l1, l2, rfl, -⟩ := List.lookup_eq_some_iff.mp h
  exact List.mem_append.mpr (Or.inr (List.mem_cons_self _ _))

theorem insert_find_mem (db : PeopleDatabase) (p : Person) (e : String)
    (he : e ∈ p.emails) :
    (db.insert_person p).find_by_email e = .ok p := by
  have h1 : (db.insert_person p).lookup.lookup e = some db.people.length := by
    rw [insert_lookup]; exact if_pos he
  have h2 : (db.insert_person p).people = db.people ++ [p] := rfl
  simp only [PeopleDatabase.find_by_email, h1, h2,
    List.getElem?_concat_length]

theorem insert_find_not_mem (db : PeopleDatabase) (p : Person) (e : String)
    (hwf : db.wf) (he : e ∉ p.emails) :
    (db.insert_person p).find_by_email e = db.find_by_email e := by
  have h1 : (db.insert_person p).lookup.lookup e = db.lookup.lookup e := by
    rw [insert_lookup]; exact if_neg he
  have h2 : (db.insert_person p).people = db.people ++ [p] := rfl
  simp only [PeopleDatabase.find_by_email, h1, h2]
  cases hl : List.lookup e db.lookup with
  | none => rfl
  | some i =>
    have hi : i < db.people.length := hwf (e, i) (mem_of_lookup hl)
    simp only [List.getElem?_append_left hi]

theorem insert_has_email (db : PeopleDatabase) (p : Person) (e : String) :
    (db.insert_person p).has_email e =
      (decide (e ∈ p.emails) || db.has_email e) := by
  simp only [PeopleDatabase.has_email, insert_lookup]
  by_cases he : e ∈ p.emails <;> simp [he]

theorem mem_foldl_cons (es : List String) (n : Nat)
    (acc : List (String × Nat)) (pr : String × Nat)
    (h : pr ∈ es.foldl (fun l x => (x, n) :: l) acc) :
    pr.2 = n ∨ pr ∈ acc := by
  induction es generalizing acc with
  | nil => exact Or.inr h
  | cons a tail ih =>
    rcases ih ((a, n) :: acc) h with h2 | h2
    · exact Or.inl h2
    · rcases List.mem_cons.mp h2 with h3 | h3
      · exact Or.inl (by rw [h3])
      · exact Or.inr h3

theorem insert_wf (db : PeopleDatabase) (p : Person) (hwf : db.wf) :
    (db.insert_person p).wf := by
  intro pr hpr
  simp only [PeopleDatabase.insert_person, List.length_append,
    List.length_singleton]
  rcases mem_foldl_cons p.emails db.people.length db.lookup pr hpr with h | h
  · omega
  · exact Nat.lt_succ_of_lt (hwf pr h)

theorem has_email_iff (p : Person) (e : String) :
    p.has_email e = true ↔ e ∈ p.emails := by
  simp [Person.has_email]

theorem add_person_of_no_conflict (db : PeopleDatabase) (p : Person)
    (h : ∀ e ∈ p.emails, db.has_email e = false) :
    db.add_person p = (db.insert_person p, none) := by
  unfold PeopleDatabase.add_person
  have hf : p.emails.find? (fun e => db.has_email e) = none := by
    rw [List.find?_eq_none]
    intro e he
    simp [h e he]
  rw [hf]

theorem add_person_snd_none_iff (db : PeopleDatabase) (p : Person) :
    (db.add_person p).2 = none ↔ ∀ e ∈ p.emails, db.has_email e = false := by
  constructor
  · intro h e he
    by_contra hne
    have htrue : db.has_email e = true := by
      cases hv : db.has_email e
      · exact absurd hv hne
      · rfl
    have : p.emails.find? (fun e => db.has_email e) ≠ none := by
      intro hnone
      exact absurd htrue (by simpa using List.find?_eq_none.mp hnone e he)
    unfold PeopleDatabase.add_person at h
    cases hf : p.emails.find? (fun e => db.has_email e) with
    | none => exact this hf
    | some em =>
      rw [hf] at h
      cases hfe : db.find_by_email em <;> simp [hfe] at h
  · intro h
    rw [add_person_of_no_conflict db p h]

/-- `has_email` is monotone under a successful add. -/
theorem add_person_has_email_mono (db : PeopleDatabase) (p : Person)
    (e : String)
    (hok : ∀ e ∈ p.emails, db.has_email e = false)
    (h : db.has_email e = true) :
    ((db.add_person p).1).has_email e = true := by
  rw [add_person_of_no_conflict db p hok]
  simp only [PeopleDatabase.has_email] at h ⊢
  rw [insert_lookup]
  by_cases he : e ∈ p.emails
  · simp [he]
  · simpa [he] using h

theorem find_ok_has_email (db : PeopleDatabase) (e : String) (p : Person)
    (h : db.find_by_email e = .ok p) : db.has_email e = true := by
  unfold PeopleDatabase.find_by_email at h
  cases hl : db.lookup.lookup e with
  | none => rw [hl] at h; exact absurd h (by simp)
  | some i => simp [PeopleDatabase.has_email, hl]

theorem find_error_unknown (db : PeopleDatabase) (e : String)
    (err : TriviaError) (h : db.find_by_email e = .error err) :
    err = .unknownEmail e := by
  unfold PeopleDatabase.find_by_email at h
  cases hl : db.lookup.lookup e with
  | none => rw [hl] at h; cases h; rfl
  | some i =>
    rw [hl] at h
    cases hp : db.people[i]? with
    | none => simp [hp] at h; exact h.symm
    | some q => simp [hp] at h

/-- Under the index invariant, a conflicting email resolves to its existing
owner. -/
theorem has_email_find_ok (db : PeopleDatabase) (e : String) (hwf : db.wf)
    (h : db.has_email e = true) :
    ∃ owner, db.find_by_email e = .ok owner := by
  simp only [PeopleDatabase.has_email] at h
  cases hl : db.lookup.lookup e with
  | none => rw [hl] at h; simp at h
  | some i =>
    have hi : i < db.people.length := hwf (e, i) (mem_of_lookup hl)
    refine ⟨db.people[i], ?_⟩
    unfold PeopleDatabase.find_by_email
    rw [hl]
    simp [List.getElem?_eq_getElem hi]

theorem add_person_fail (db : PeopleDatabase) (p : Person)
    (err : TriviaError) (hwf : db.wf)
    (h : (db.add_person p).2 = some err) :
    (db.add_person p).1 = db
    ∧ ∃ e owner, e ∈ p.emails ∧ db.find_by_email e = .ok owner
        ∧ err = .conflictingEmail owner.name p.name e := by
  cases hf : p.emails.find? (fun e => db.has_email e) with
  | none =>
    have : db.add_person p = (db.insert_person p, none) := by
      unfold PeopleDatabase.add_person
      rw [hf]
    rw [this] at h
    simp at h
  | some em =>
    have hmem : em ∈ p.emails := List.mem_of_find?_eq_some hf
    have hprop : db.has_email em = true := List.find?_some hf
    obtain ⟨owner, how⟩ := has_email_find_ok db em hwf hprop
    have heq : db.add_person p =
        (db, some (.conflictingEmail owner.name p.name em)) := by
      unfold PeopleDatabase.add_person
      rw [hf]
      simp [how]
    rw [heq] at h
    simp only [Option.some.injEq] at h
    exact ⟨by rw [heq], em, owner, hmem, how, h.symm⟩

/-- C1: `add_person` succeeds exactly when the candidate's alias set is
disjoint from every indexed alias; on success the person count grows by one
and every candidate alias resolves to the new person; on a conflict the
reported error carries the existing owner's name, the new person's name and
the colliding alias, and the registry — person list and alias index — is
returned unchanged (the only mutation, `insert_person`, happens strictly
after the full conflict scan). -/
theorem add_person_atomic (db : PeopleDatabase) (p : Person) (hwf : db.wf) :
    ((db.add_person p).2 = none ↔
      ∀ e, p.has_email e = true → db.has_email e = false)
    ∧ ((db.add_person p).2 = none →
        (db.add_person p).1.people.length = db.people.length + 1
        ∧ ∀ e, p.has_email e = true →
            (db.add_person p).1.find_by_email e = .ok p)
    ∧ (∀ err, (db.add_person p).2 = some err →
        (db.add_person p).1 = db
        ∧ ∃ e owner, p.has_email e = true
            ∧ db.find_by_email e = .ok owner
            ∧ err = .conflictingEmail owner.name p.name e) := by
  refine ⟨?_, ?_, ?_⟩
  · rw [add_person_snd_none_iff]
    constructor
    · intro h e he
      exact h e ((has_email_iff p e).mp he)
    · intro h e he
      exact h e ((has_email_iff p e).mpr he)
  · intro h
    have hdisj := (add_person_snd_none_iff db p).mp h
    rw [add_person_of_no_conflict db p hdisj]
    refine ⟨by simp [PeopleDatabase.insert_person], ?_⟩
    intro e he
    exact insert_find_mem db p e ((has_email_iff p e).mp he)
  · intro err h
    obtain ⟨hun, e, owner, hmem, how, herr⟩ := add_person_fail db p err hwf h
    exact ⟨hun, e, owner, (has_email_iff p e).mpr hmem, how, herr⟩

/-- Witness for C1 at concrete inputs: adding `janeW` to the empty registry
succeeds and yields one person, and the conflicting add of `joeW` leaves
the registry unchanged. -/
theorem add_person_atomic_witness :
    (PeopleDatabase.new.add_person janeW).1.people.length
      = PeopleDatabase.new.people.length + 1
    ∧ (dbJane.add_person joeW).1 = dbJane :=
  ⟨((add_person_atomic PeopleDatabase.new janeW (by decide)).2.1 (by rfl)).1,
   ((add_person_atomic dbJane joeW (by decide)).2.2
      (.conflictingEmail "Jane Doe" "Joe" "jane@x.com") (by rfl)).1⟩

theorem has_email_false_iff (p : Person) (e : String) :
    p.has_email e = false ↔ e ∉ p.emails := by
  simp [Person.has_email]

theorem add_person_db_has (db : PeopleDatabase) (p : Person) (e : String)
    (he : e ∈ p.emails) :
    (db.insert_person p).has_email e = true := by
  rw [insert_has_email]
  simp [he]

/-- The registry invariant and the resolution behavior along any chain of
successful adds: every alias of an added person resolves to that person,
aliases belonging to no added person resolve as they did initially, added
persons' aliases were unindexed beforehand, and well-formedness is
preserved. -/
theorem addAllOk_spec (ps : List Person) :
    ∀ db db', addAllOk db ps = some db' → db.wf →
      (∀ p, p ∈ ps → ∀ e, e ∈ p.emails → db'.find_by_email e = .ok p)
      ∧ (∀ e, (∀ p, p ∈ ps → e ∉ p.emails) →
          db'.find_by_email e = db.find_by_email e)
      ∧ (∀ p, p ∈ ps → ∀ e, e ∈ p.emails → db.has_email e = false)
      ∧ db'.wf := by
  induction ps with
  | nil =>
    intro db db' h hwf
    simp only [addAllOk] at h
    cases h
    exact ⟨by simp, fun e _ => rfl, by simp, hwf⟩
  | cons p rest ih =>
    intro db db' h hwf
    simp only [addAllOk] at h
    rcases hap : db.add_person p with ⟨db1, oerr⟩
    rw [hap] at h
    cases oerr with
    | some err => exact absurd h (by simp)
    | none =>
      have hsnd : (db.add_person p).2 = none := by rw [hap]
      have hdisj := (add_person_snd_none_iff db p).mp hsnd
      have hdb1 : db1 = db.insert_person p := by
        have h5 := add_person_of_no_conflict db p hdisj
        rw [hap] at h5
        exact congrArg Prod.fst h5
      have hwf1 : db1.wf := hdb1 ▸ insert_wf db p hwf
      obtain ⟨A1, A2, A3, A4⟩ := ih db1 db' h hwf1
      refine ⟨?_, ?_, ?_, A4⟩
      · intro q hq e he
        rcases List.mem_cons.mp hq with rfl | hq2
        · have hrest : ∀ r, r ∈ rest → e ∉ r.emails := by
            intro r hr her
            have h3 := A3 r hr e her
            have h4 : db1.has_email e = true := by
              rw [hdb1]; exact add_person_db_has db q e he
            rw [h3] at h4
            cases h4
          rw [A2 e hrest, hdb1]
          exact insert_find_mem db q e he
        · exact A1 q hq2 e he
      · intro e hnone
        have h2 := A2 e (fun r hr => hnone r (List.mem_cons_of_mem p hr))
        rw [h2, hdb1]
        exact insert_find_not_mem db p e hwf (hnone p (List.mem_cons_self p rest))
      · intro q hq e he
        rcases List.mem_cons.mp hq with rfl | hq2
        · exact hdisj e he
        · have h3 := A3 q hq2 e he
          by_contra hne
          have htrue : db.has_email e = true := by
            cases hv : db.has_email e
            · exact absurd hv hne
            · rfl
          have h4 : db1.has_email e = true := by
            rw [hdb1, insert_has_email]
            simp [htrue]
          rw [h3] at h4
          cases h4

/-- C2: in a registry built by successful adds, every alias of an added
person resolves through `find_by_email` to exactly that person; an alias
attached to no added person fails with `UnknownEmail` naming it; and
`find_by_signature` resolves through the alias only — the signature's
display name is never consulted. -/
theorem find_by_email_spec (ps : List Person) (db : PeopleDatabase)
    (h : addAllOk PeopleDatabase.new ps = some db) :
    (∀ p, p ∈ ps → ∀ e, p.has_email e = true → db.find_by_email e = .ok p)
    ∧ (∀ e, (∀ p, p ∈ ps → p.has_email e = false) →
        db.find_by_email e = .error (.unknownEmail e))
    ∧ (∀ n1 n2 em, db.find_by_signature { name := n1, email := em }
        = db.find_by_signature { name := n2, email := em }) := by
  have hw : PeopleDatabase.new.wf := by intro pr hpr; cases hpr
  obtain ⟨A1, A2, -, -⟩ := addAllOk_spec ps PeopleDatabase.new db h hw
  refine ⟨?_, ?_, fun n1 n2 em => rfl⟩
  · intro p hp e he
    exact A1 p hp e ((has_email_iff p e).mp he)
  · intro e hnone
    have h2 := A2 e (fun p hp => (has_email_false_iff p e).mp (hnone p hp))
    rw [h2]
    rfl

/-- Witness for C2: in the registry `[janeW, johnW]`, both of Jane's
aliases resolve to Jane, John's alias resolves to John, and an alias never
added fails with `UnknownEmail`. -/
theorem find_by_email_spec_witness :
    dbJaneJohn.find_by_email "jane2@x.com" = .ok janeW
    ∧ dbJaneJohn.find_by_email "john@x.com" = .ok johnW
    ∧ dbJaneJohn.find_by_email "nobody@x.com"
        = .error (.unknownEmail "nobody@x.com") :=
  ⟨(find_by_email_spec [janeW, johnW] dbJaneJohn rfl).1 janeW (by decide)
      "jane2@x.com" (by decide),
   (find_by_email_spec [janeW, johnW] dbJaneJohn rfl).1 johnW (by decide)
      "john@x.com" (by decide),
   (find_by_email_spec [janeW, johnW] dbJaneJohn rfl).2.1 "nobody@x.com"
      (by decide)⟩

/-- C10: resolving a signature without an email looks up the empty-string
alias: it equals `find_by_email ""`, fails with `UnknownEmail ""` when no
added person owns the empty-string alias, and returns the owning person
when one was added with it. -/
theorem find_by_signature_no_email (ps : List Person) (db : PeopleDatabase)
    (name : Option String)
    (h : addAllOk PeopleDatabase.new ps = some db) :
    db.find_by_signature { name := name, email := none }
      = db.find_by_email ""
    ∧ ((∀ p, p ∈ ps → p.has_email "" = false) →
        db.find_by_signature { name := name, email := none }
          = .error (.unknownEmail ""))
    ∧ (∀ p, p ∈ ps → p.has_email "" = true →
        db.find_by_signature { name := name, email := none } = .ok p) := by
  have hw : PeopleDatabase.new.wf := by intro pr hpr; cases hpr
  obtain ⟨A1, A2, -, -⟩ := addAllOk_spec ps PeopleDatabase.new db h hw
  refine ⟨rfl, ?_, ?_⟩
  · intro hnone
    show db.find_by_email "" = _
    rw [A2 "" (fun p hp => (has_email_false_iff p "").mp (hnone p hp))]
    rfl
  · intro p hp he
    show db.find_by_email "" = _
    exact A1 p hp "" ((has_email_iff p "").mp he)

/-- Witness for C10: with only `janeW` added, a no-email signature fails
with `UnknownEmail ""`; with `emptyAliasW` (owner of the empty alias)
added, the same lookup returns that person. -/
theorem find_by_signature_no_email_witness :
    dbJane.find_by_signature { name := some "Someone", email := none }
      = .error (.unknownEmail "")
    ∧ dbEmptyAlias.find_by_signature { name := some "Someone", email := none }
        = .ok emptyAliasW :=
  ⟨(find_by_signature_no_email [janeW] dbJane (some "Someone") rfl).2.1
      (by decide),
   (find_by_signature_no_email [emptyAliasW] dbEmptyAlias (some "Someone")
      rfl).2.2 emptyAliasW (by decide) (by decide)⟩

/-! ### Accumulator lemmas -/

theorem updateEntry_find_self {K V : Type} (key : K → String)
    (l : List (K × V)) (k : K) (d : V) (f : V → V) :
    ((updateEntry (fun a b => key a == key b) l k d f).find?
        (fun pr => key pr.1 == key k)).map (fun pr => pr.2)
      = some (f (((l.find? (fun pr => key pr.1 == key k)).map
          (fun pr => pr.2)).getD d)) := by
  induction l with
  | nil => simp [updateEntry]
  | cons pr tail ih =>
    by_cases hm : (key pr.1 == key k) = true
    · have hany : ((pr :: tail).any fun q => key q.1 == key k) = true := by
        simp [List.any_cons, hm]
      have hupd : updateEntry (fun a b => key a == key b) (pr :: tail) k d f
          = (pr.1, f pr.2)
              :: tail.map (fun q => if key q.1 == key k then (q.1, f q.2) else q) := by
        unfold updateEntry
        rw [if_pos hany, List.map_cons, if_pos hm]
      rw [hupd,
        List.find?_cons_of_pos (p := fun q : K × V => key q.1 == key k)
          (a := (pr.1, f pr.2)) _ hm,
        List.find?_cons_of_pos (p := fun q : K × V => key q.1 == key k)
          (a := pr) _ hm]
      simp
    · by_cases hany : (tail.any fun q => key q.1 == key k) = true
      · have hany2 : ((pr :: tail).any fun q => key q.1 == key k) = true := by
          simp [List.any_cons, hany]
        have hupd : updateEntry (fun a b => key a == key b) (pr :: tail) k d f
            = pr :: tail.map
                (fun q => if key q.1 == key k then (q.1, f q.2) else q) := by
          unfold updateEntry
          rw [if_pos hany2, List.map_cons, if_neg hm]
        rw [hupd,
          List.find?_cons_of_neg (p := fun q : K × V => key q.1 == key k) _ hm,
          List.find?_cons_of_neg (p := fun q : K × V => key q.1 == key k) _ hm]
        have hupd2 : updateEntry (fun a b => key a == key b) tail k d f
            = tail.map (fun q => if key q.1 == key k then (q.1, f q.2) else q) := by
          unfold updateEntry
          rw [if_pos hany]
        rw [hupd2] at ih
        exact ih
      · have hany2 : ¬ (((pr :: tail).any fun q => key q.1 == key k) = true) := by
          simp only [List.any_cons, Bool.or_eq_true, not_or]
          exact ⟨hm, hany⟩
        have hupd : updateEntry (fun a b => key a == key b) (pr :: tail) k d f
            = pr :: (tail ++ [(k, f d)]) := by
          unfold updateEntry
          rw [if_neg hany2, List.cons_append]
        rw [hupd,
          List.find?_cons_of_neg (p := fun q : K × V => key q.1 == key k) _ hm,
          List.find?_cons_of_neg (p := fun q : K × V => key q.1 == key k) _ hm]
        have hupd2 : updateEntry (fun a b => key a == key b) tail k d f
            = tail ++ [(k, f d)] := by
          unfold updateEntry
          rw [if_neg hany]
        rw [hupd2] at ih
        exact ih

theorem find?_map_upd {K V : Type} (key : K → String) (l : List (K × V))
    (k : K) (f : V → V) (s : String) (hne : s ≠ key k) :
    (l.map (fun q => if key q.1 == key k then (q.1, f q.2) else q)).find?
        (fun q => key q.1 == s)
      = l.find? (fun q => key q.1 == s) := by
  induction l with
  | nil => rfl
  | cons pr tail ih =>
    by_cases hm : (key pr.1 == key k) = true
    · have hs : ¬ ((key pr.1 == s) = true) := by
        have h1 : key pr.1 = key k := by simpa using hm
        rw [h1]
        simp [beq_false_of_ne (Ne.symm hne)]
      simp only [List.map_cons, if_pos hm]
      rw [List.find?_cons_of_neg (p := fun q : K × V => key q.1 == s)
          (a := (pr.1, f pr.2)) _ hs,
        List.find?_cons_of_neg (p := fun q : K × V => key q.1 == s)
          (a := pr) _ hs]
      exact ih
    · simp only [List.map_cons, if_neg hm]
      by_cases hs : (key pr.1 == s) = true
      · rw [List.find?_cons_of_pos (p := fun q : K × V => key q.1 == s) _ hs,
          List.find?_cons_of_pos (p := fun q : K × V => key q.1 == s) _ hs]
      · rw [List.find?_cons_of_neg (p := fun q : K × V => key q.1 == s) _ hs,
          List.find?_cons_of_neg (p := fun q : K × V => key q.1 == s) _ hs]
        exact ih

theorem updateEntry_find_other {K V : Type} (key : K → String)
    (l : List (K × V)) (k : K) (d : V) (f : V → V) (s : String)
    (hne : s ≠ key k) :
    (updateEntry (fun a b => key a == key b) l k d f).find?
        (fun q => key q.1 == s)
      = l.find? (fun q => key q.1 == s) := by
  by_cases hany : (l.any fun q => key q.1 == key k) = true
  · simp only [updateEntry, hany, if_pos rfl]
    exact find?_map_upd key l k f s hne
  · have : updateEntry (fun a b => key a == key b) l k d f
        = l ++ [(k, f d)] := by simp [updateEntry, hany]
    rw [this, List.find?_append]
    have hlast : List.find? (fun q => key q.1 == s) [(k, f d)] = none := by
      simp [beq_false_of_ne (Ne.symm hne)]
    rw [hlast]
    simp

theorem person_value_track_self {T : Type} [Inhabited T]
    (c : CombinedTracking T) (p : Person) (f : T → T) :
    (c.track_person p f).person_value p
      = some (f ((c.person_value p).getD default)) :=
  updateEntry_find_self Person.name c.people_tracking.lookup p
    default f

theorem person_value_track_other {T : Type} [Inhabited T]
    (c : CombinedTracking T) (p q : Person) (f : T → T)
    (h : q.name ≠ p.name) :
    (c.track_person p f).person_value q = c.person_value q := by
  show ((updateEntry (fun a b => a.name == b.name) c.people_tracking.lookup p
      default f).find? (fun pr => pr.1.name == q.name)).map (fun pr => pr.2)
    = (c.people_tracking.lookup.find? (fun pr => pr.1.name == q.name)).map
        (fun pr => pr.2)
  rw [updateEntry_find_other Person.name c.people_tracking.lookup p
    default f q.name h]

theorem team_value_track_some {T : Type} [Inhabited T]
    (c : CombinedTracking T) (p : Person) (f : T → T) (tm : String)
    (h : p.team_name = some tm) :
    (c.track_person p f).team_value tm
      = some (f ((c.team_value tm).getD default)) := by
  show (c.team_tracking.track p f).team_value tm = _
  unfold TeamTracking.track
  rw [h]
  exact updateEntry_find_self (fun s => s) c.team_tracking.lookup tm
    default f

theorem team_value_track_some_other {T : Type} [Inhabited T]
    (c : CombinedTracking T) (p : Person) (f : T → T) (tm s : String)
    (h : p.team_name = some tm) (hs : s ≠ tm) :
    (c.track_person p f).team_value s = c.team_value s := by
  show (c.team_tracking.track p f).team_value s = _
  unfold TeamTracking.track
  rw [h]
  exact congrArg (Option.map (fun pr => pr.2))
    (updateEntry_find_other (fun s => s) c.team_tracking.lookup tm
      default f s hs)

theorem no_team_track_some {T : Type} [Inhabited T]
    (c : CombinedTracking T) (p : Person) (f : T → T) (tm : String)
    (h : p.team_name = some tm) :
    (c.track_person p f).no_team_value = c.no_team_value := by
  show (c.team_tracking.track p f).no_team = _
  unfold TeamTracking.track
  rw [h]
  rfl

theorem no_team_track_none {T : Type} [Inhabited T]
    (c : CombinedTracking T) (p : Person) (f : T → T)
    (h : p.team_name = none) :
    (c.track_person p f).no_team_value = f c.no_team_value := by
  show (c.team_tracking.track p f).no_team = _
  unfold TeamTracking.track
  rw [h]
  rfl

theorem team_value_track_none {T : Type} [Inhabited T]
    (c : CombinedTracking T) (p : Person) (f : T → T) (s : String)
    (h : p.team_name = none) :
    (c.track_person p f).team_value s = c.team_value s := by
  show (c.team_tracking.track p f).team_value s = _
  unfold TeamTracking.track
  rw [h]
  rfl

theorem trackN_person_value (p : Person) : ∀ n : Nat,
    ((trackN CombinedTracking.new p (fun x : Nat => x + 1) n).person_value
        p).getD 0 = n := by
  intro n
  induction n with
  | zero => rfl
  | succ k ih =>
    show (((trackN CombinedTracking.new p (fun x : Nat => x + 1)
        k).track_person p (fun x : Nat => x + 1)).person_value p).getD 0 = k + 1
    rw [person_value_track_self]
    simpa using ih

theorem trackN_team_value (p : Person) (tm : String)
    (h : p.team_name = some tm) : ∀ n : Nat,
    ((trackN CombinedTracking.new p (fun x : Nat => x + 1) n).team_value
        tm).getD 0 = n
    ∧ (trackN CombinedTracking.new p (fun x : Nat => x + 1) n).no_team_value
        = 0 := by
  intro n
  induction n with
  | zero => exact ⟨rfl, rfl⟩
  | succ k ih =>
    constructor
    · show (((trackN CombinedTracking.new p (fun x : Nat => x + 1)
          k).track_person p (fun x : Nat => x + 1)).team_value tm).getD 0
        = k + 1
      rw [team_value_track_some _ _ _ _ h]
      simpa using ih.1
    · show ((trackN CombinedTracking.new p (fun x : Nat => x + 1)
          k).track_person p (fun x : Nat => x + 1)).no_team_value = 0
      rw [no_team_track_some _ _ _ _ h]
      exact ih.2

theorem trackN_no_team (p : Person) (h : p.team_name = none) : ∀ n : Nat,
    (trackN CombinedTracking.new p (fun x : Nat => x + 1) n).no_team_value
      = n := by
  intro n
  induction n with
  | zero => rfl
  | succ k ih =>
    show ((trackN CombinedTracking.new p (fun x : Nat => x + 1)
        k).track_person p (fun x : Nat => x + 1)).no_team_value = k + 1
    rw [no_team_track_none _ _ _ h, ih]

/-- C3: one `track_person` call mutates exactly the tracked person's slot
(creating it from the default value if needed) and exactly one team-level
slot — the person's team slot when a team is set, the unaffiliated slot
otherwise — and leaves every other person slot, team slot and the remaining
team-level slot unchanged.  Consequently, tracking the same person `n` times
with a `+1` mutation from a fresh accumulator puts `n` in that person's slot
and `n` in the corresponding team-level slot. -/
theorem track_person_spec (T : Type) [Inhabited T] (c : CombinedTracking T)
    (p : Person) (f : T → T) :
    ((c.track_person p f).person_value p
        = some (f ((c.person_value p).getD default))
      ∧ ∀ q, q.name ≠ p.name →
          (c.track_person p f).person_value q = c.person_value q)
    ∧ (∀ tm, p.team_name = some tm →
        (c.track_person p f).team_value tm
            = some (f ((c.team_value tm).getD default))
        ∧ (∀ s, s ≠ tm → (c.track_person p f).team_value s = c.team_value s)
        ∧ (c.track_person p f).no_team_value = c.no_team_value)
    ∧ (p.team_name = none →
        (c.track_person p f).no_team_value = f c.no_team_value
        ∧ ∀ s, (c.track_person p f).team_value s = c.team_value s)
    ∧ (∀ n : Nat,
        ((trackN CombinedTracking.new p (fun x : Nat => x + 1) n).person_value
            p).getD 0 = n
        ∧ (∀ tm, p.team_name = some tm →
            ((trackN CombinedTracking.new p (fun x : Nat => x + 1)
                n).team_value tm).getD 0 = n
            ∧ (trackN CombinedTracking.new p (fun x : Nat => x + 1)
                n).no_team_value = 0)
        ∧ (p.team_name = none →
            (trackN CombinedTracking.new p (fun x : Nat => x + 1)
              n).no_team_value = n)) := by
  refine ⟨⟨person_value_track_self c p f, ?_⟩, ?_, ?_, ?_⟩
  · intro q hq
    exact person_value_track_other c p q f hq
  · intro tm h
    exact ⟨team_value_track_some c p f tm h,
      fun s hs => team_value_track_some_other c p f tm s h hs,
      no_team_track_some c p f tm h⟩
  · intro h
    exact ⟨no_team_track_none c p f h, fun s => team_value_track_none c p f s h⟩
  · intro n
    exact ⟨trackN_person_value p n,
      fun tm h => trackN_team_value p tm h n,
      fun h => trackN_no_team p h n⟩

/-- Witness for C3 at concrete inputs: tracking `johnW` (team `"T1"`) once
with `+1` on a fresh accumulator gives that person's slot 1 and team slot 1,
and three `+1` tracks give 3 and 3, with the unaffiliated slot untouched. -/
theorem track_person_spec_witness :
    (CombinedTracking.new.track_person johnW (fun x : Nat => x + 1)
        ).person_value johnW = some 1
    ∧ ((trackN CombinedTracking.new johnW (fun x : Nat => x + 1)
        3).team_value "T1").getD 0 = 3
    ∧ (trackN CombinedTracking.new johnW (fun x : Nat => x + 1)
        3).no_team_value = 0 :=
  ⟨((track_person_spec Nat CombinedTracking.new johnW
      (fun x => x + 1)).1.1).trans (by rfl),
   ((track_person_spec Nat CombinedTracking.new johnW
      (fun x => x + 1)).2.2.2 3).2.1 "T1" (by rfl) |>.1,
   ((track_person_spec Nat CombinedTracking.new johnW
      (fun x => x + 1)).2.2.2 3).2.1 "T1" (by rfl) |>.2⟩

/-! ### Ownership statistics lemmas -/

theorem upd_fst (p : Person) (f : OwnershipScore → OwnershipScore)
    (x : Person × OwnershipScore) :
    ((if x.1.name == p.name then (x.1, f x.2) else x)).1 = x.1 := by
  by_cases h : (x.1.name == p.name) = true <;> simp [h]

theorem upd_pairwise (l : List (Person × OwnershipScore)) (p : Person)
    (f : OwnershipScore → OwnershipScore) (hd : namesDistinct l) :
    namesDistinct (updateEntry (fun a b => a.name == b.name) l p default f) := by
  unfold updateEntry
  by_cases hany : (l.any fun pr => pr.1.name == p.name) = true
  · rw [if_pos hany]
    rw [namesDistinct, List.pairwise_map]
    refine hd.imp ?_
    intro a b hab
    rw [upd_fst p f a, upd_fst p f b]
    exact hab
  · rw [if_neg hany]
    rw [namesDistinct, List.pairwise_append]
    refine ⟨hd, by simp, ?_⟩
    intro a ha b hb
    simp only [List.mem_singleton] at hb
    subst hb
    have h1 : ¬ ((a.1.name == p.name) = true) := by
      intro hc
      rw [List.any_eq_true] at hany
      exact hany ⟨a, ha, hc⟩
    simpa using h1

theorem sum_map_upd (l : List (Person × OwnershipScore)) (p : Person)
    (k : Nat) (hd : namesDistinct l)
    (hany : (l.any fun pr => pr.1.name == p.name) = true) :
    personLinesSum (l.map (fun pr =>
        if pr.1.name == p.name then (pr.1, pr.2.add_lines k) else pr))
      = personLinesSum l + k := by
  induction l with
  | nil => simp at hany
  | cons pr tail ih =>
    by_cases hm : (pr.1.name == p.name) = true
    · have hname : pr.1.name = p.name := by simpa using hm
      have htail : tail.map (fun q =>
          if q.1.name == p.name then (q.1, q.2.add_lines k) else q) = tail := by
        have h1 : ∀ q ∈ tail, (if q.1.name == p.name
            then (q.1, q.2.add_lines k) else q) = q := by
          intro q hq
          have h2 : pr.1.name ≠ q.1.name :=
            (List.pairwise_cons.mp hd).1 q hq
          have h3 : ¬ ((q.1.name == p.name) = true) := by
            intro hc
            have hq2 : q.1.name = p.name := by simpa using hc
            exact h2 (by rw [hname, hq2])
          rw [if_neg h3]
        calc tail.map (fun q => if q.1.name == p.name
              then (q.1, q.2.add_lines k) else q)
            = tail.map id := List.map_congr_left (fun a ha => h1 a ha)
          _ = tail := List.map_id tail
      simp only [List.map_cons, if_pos hm, htail]
      simp [personLinesSum, OwnershipScore.add_lines]
      omega
    · have hany2 : (tail.any fun q => q.1.name == p.name) = true := by
        rcases List.any_eq_true.mp hany with ⟨x, hx, hpx⟩
        rcases List.mem_cons.mp hx with rfl | hx2
        · exact absurd hpx hm
        · exact List.any_eq_true.mpr ⟨x, hx2, hpx⟩
      have ih2 := ih (List.pairwise_cons.mp hd).2 hany2
      simp only [List.map_cons, if_neg hm]
      simp only [personLinesSum, List.map_cons, List.sum_cons] at ih2 ⊢
      omega

theorem personLinesSum_track (c : CombinedTracking OwnershipScore)
    (p : Person) (k : Nat) (hd : namesDistinct c.people_tracking.lookup) :
    personLinesSum ((c.track_person p
        (fun s => s.add_lines k)).people_tracking.lookup)
      = personLinesSum c.people_tracking.lookup + k := by
  show personLinesSum (updateEntry (fun a b => a.name == b.name)
      c.people_tracking.lookup p default (fun s => s.add_lines k)) = _
  unfold updateEntry
  by_cases hany :
      (c.people_tracking.lookup.any fun pr => pr.1.name == p.name) = true
  · rw [if_pos hany]
    exact sum_map_upd c.people_tracking.lookup p k hd hany
  · rw [if_neg hany]
    simp [personLinesSum, OwnershipScore.add_lines]
    rfl

theorem track_pairwise (c : CombinedTracking OwnershipScore) (p : Person)
    (f : OwnershipScore → OwnershipScore)
    (hd : namesDistinct c.people_tracking.lookup) :
    namesDistinct ((c.track_person p f).people_tracking.lookup) :=
  upd_pairwise c.people_tracking.lookup p f hd

theorem trackEvents_sum : ∀ (events : List (Person × Nat))
    (c : CombinedTracking OwnershipScore),
    namesDistinct c.people_tracking.lookup →
    personLinesSum ((events.foldl
        (fun c ev => c.track_person ev.1 (fun s => s.add_lines ev.2))
        c).people_tracking.lookup)
      = personLinesSum c.people_tracking.lookup
          + (events.map (fun ev => ev.2)).sum := by
  intro events
  induction events with
  | nil => intro c _; simp
  | cons ev rest ih =>
    intro c hd
    have h1 := ih (c.track_person ev.1 (fun s => s.add_lines ev.2))
      (track_pairwise c ev.1 _ hd)
    simp only [List.foldl_cons] at h1 ⊢
    rw [h1, personLinesSum_track c ev.1 ev.2 hd]
    simp [Nat.add_assoc]

/-- C4: the statistics total is exactly the sum of the person-entry line
counts: feeding any list of `(person, lineCount)` attribution events through
the accumulator makes `totalLines` the exact sum of all event line counts
(nothing omitted, nothing double counted), and the total is computed from
the person entries only — replacing the whole team-level accumulator leaves
it unchanged. -/
theorem total_lines_spec :
    (∀ events : List (Person × Nat),
      (OwnershipStatistics.from_tracking (trackEvents events)).totalLines
        = (events.map (fun ev => ev.2)).sum)
    ∧ (∀ owners : CombinedTracking OwnershipScore,
        (OwnershipStatistics.from_tracking owners).totalLines
          = (owners.people_tracking.lookup.map
              (fun pr => pr.2.total_lines_owned)).sum
        ∧ ∀ t2 : TeamTracking OwnershipScore,
            (OwnershipStatistics.from_tracking
              { owners with team_tracking := t2 }).totalLines
              = (OwnershipStatistics.from_tracking owners).totalLines) := by
  refine ⟨?_, fun owners => ⟨rfl, fun t2 => rfl⟩⟩
  intro events
  have h1 := trackEvents_sum events CombinedTracking.new (by
    exact List.Pairwise.nil)
  show personLinesSum ((trackEvents events).people_tracking.lookup) = _
  unfold trackEvents
  rw [h1]
  simp [personLinesSum, CombinedTracking.new, PeopleTracking.new]

/-! ### Tree walker lemmas -/

theorem nextAux_yield_bound : ∀ (frames : List (List (String × GitObject) × Nat))
    (path : List String) (e : Entry) (w' : TreeWalker),
    nextAux frames path = .yield e w' → boundOf w'.frames < boundOf frames := by
  intro frames
  induction frames with
  | nil => intro path e w' h; simp [nextAux] at h
  | cons fr rest ih =>
    intro path e w' h
    rcases fr with ⟨entries, i⟩
    by_cases hlt : i < entries.length
    · rcases hget : entries.get ⟨i, hlt⟩ with ⟨name, obj⟩
      have hgetE : entries[i] = (name, obj) := by
        rw [← hget]
        exact (List.get_eq_getElem entries ⟨i, hlt⟩).symm
      have hdrop : entries.drop i = (name, obj) :: entries.drop (i + 1) := by
        rw [List.drop_eq_getElem_cons hlt, hgetE]
      rw [nextAux, dif_pos hlt, hget] at h
      cases obj with
      | other => simp [Entry.new] at h
      | blob b =>
        simp only [Entry.new, Entry.treeGet] at h
        cases h
        simp only [boundOf, List.map_cons, List.sum_cons, frameWeight, hdrop,
          entriesWeight, objWeight, List.length_cons]
        omega
      | tree sub =>
        simp only [Entry.new, Entry.treeGet] at h
        cases h
        simp only [boundOf, List.map_cons, List.sum_cons, frameWeight, hdrop,
          entriesWeight, objWeight, List.drop_zero, List.length_cons]
        omega
    · rw [nextAux, dif_neg hlt] at h
      have h2 := ih path.dropLast e w' h
      have h3 : entries.drop i = [] :=
        List.drop_eq_nil_of_le (Nat.le_of_not_lt hlt)
      simp only [boundOf, List.map_cons, List.sum_cons, frameWeight, h3,
        entriesWeight, List.length_cons] at h2 ⊢
      omega

theorem runFuel_stateOutput : ∀ (fuel : Nat)
    (frames : List (List (String × GitObject) × Nat)) (path : List String),
    framesOk frames = true → boundOf frames ≤ fuel →
    runFuel fuel ⟨frames, path⟩ = .ok (stateOutput frames path) := by
  intro fuel
  induction fuel with
  | zero =>
    intro frames path hok hb
    have hlen : frames.length = 0 := by
      simp only [boundOf] at hb
      omega
    obtain rfl := List.length_eq_zero.mp hlen
    rfl
  | succ fuel ihf =>
    intro frames
    induction frames with
    | nil =>
      intro path hok hb
      rfl
    | cons fr rest ihr =>
      intro path hok hb
      rcases fr with ⟨entries, i⟩
      by_cases hlt : i < entries.length
      · rcases hget : entries.get ⟨i, hlt⟩ with ⟨name, obj⟩
        have hgetE : entries[i] = (name, obj) := by
          rw [← hget]
          exact (List.get_eq_getElem entries ⟨i, hlt⟩).symm
        have hdrop : entries.drop i = (name, obj) :: entries.drop (i + 1) := by
          rw [List.drop_eq_getElem_cons hlt, hgetE]
        cases obj with
        | other =>
          exfalso
          simp [framesOk, hdrop, entriesOk, objOk] at hok
        | blob b =>
          have hnext : nextAux ((entries, i) :: rest) path =
              .yield { path := path ++ [name], kind := .file, obj := .blob b }
                ⟨(entries, i + 1) :: rest, path⟩ := by
            rw [nextAux, dif_pos hlt, hget]
            rfl
          have hok2 : framesOk ((entries, i + 1) :: rest) = true := by
            simp only [framesOk, hdrop, entriesOk, Bool.and_eq_true] at hok ⊢
            exact ⟨hok.1.2, hok.2⟩
          have hb2 : boundOf ((entries, i + 1) :: rest) ≤ fuel := by
            have h5 : boundOf ((entries, i + 1) :: rest)
                < boundOf ((entries, i) :: rest) :=
              nextAux_yield_bound ((entries, i) :: rest) path _ _ hnext
            omega
          have hrec := ihf ((entries, i + 1) :: rest) path hok2 hb2
          show (match nextAux ((entries, i) :: rest) path with
            | .done => Except.ok []
            | .panicked msg => Except.error msg
            | .yield e w' => (runFuel fuel w').map (fun l => e :: l)) = _
          rw [hnext]
          simp only [hrec, Except.map, stateOutput, hdrop, preorderEntries,
            preorderObj]
          simp [List.append_assoc]
        | tree sub =>
          have hnext : nextAux ((entries, i) :: rest) path =
              .yield { path := path ++ [name], kind := .directory,
                       obj := .tree sub }
                ⟨(sub, 0) :: (entries, i + 1) :: rest, path ++ [name]⟩ := by
            rw [nextAux, dif_pos hlt, hget]
            rfl
          have hok2 : framesOk ((sub, 0) :: (entries, i + 1) :: rest)
              = true := by
            simp only [framesOk, hdrop, entriesOk, objOk, Bool.and_eq_true,
              List.drop_zero] at hok ⊢
            exact ⟨hok.1.1, hok.1.2, hok.2⟩
          have hb2 : boundOf ((sub, 0) :: (entries, i + 1) :: rest)
              ≤ fuel := by
            have h5 : boundOf ((sub, 0) :: (entries, i + 1) :: rest)
                < boundOf ((entries, i) :: rest) :=
              nextAux_yield_bound ((entries, i) :: rest) path _ _ hnext
            omega
          have hrec := ihf ((sub, 0) :: (entries, i + 1) :: rest)
            (path ++ [name]) hok2 hb2
          show (match nextAux ((entries, i) :: rest) path with
            | .done => Except.ok []
            | .panicked msg => Except.error msg
            | .yield e w' => (runFuel fuel w').map (fun l => e :: l)) = _
          rw [hnext]
          simp only [hrec, Except.map, stateOutput, hdrop, preorderEntries,
            preorderObj, List.dropLast_concat, List.drop_zero]
          simp [List.append_assoc]
      · have hskip : nextAux ((entries, i) :: rest) path
            = nextAux rest path.dropLast := by
          rw [nextAux, dif_neg hlt]
        have h3 : entries.drop i = [] :=
          List.drop_eq_nil_of_le (Nat.le_of_not_lt hlt)
        have hok2 : framesOk rest = true := by
          simp only [framesOk, Bool.and_eq_true] at hok
          exact hok.2
        have hb2 : boundOf rest ≤ fuel + 1 := by
          simp only [boundOf, List.map_cons, List.sum_cons,
            List.length_cons] at hb ⊢
          omega
        have hrec := ihr path.dropLast hok2 hb2
        have hrec2 : (match nextAux rest path.dropLast with
            | .done => Except.ok []
            | .panicked msg => Except.error msg
            | .yield e w' => (runFuel fuel w').map (fun l => e :: l))
            = Except.ok (stateOutput rest path.dropLast) := hrec
        show (match nextAux ((entries, i) :: rest) path with
          | .done => Except.ok []
          | .panicked msg => Except.error msg
          | .yield e w' => (runFuel fuel w').map (fun l => e :: l)) = _
        rw [hskip, hrec2]
        simp [stateOutput, h3, preorderEntries]

/-- C5: over any well-kinded finite tree the walker enumerates exactly the
pre-order listing of the tree — each file and directory entry exactly once,
a container before its children, children in stored order — and then
terminates (the run consumes the whole iteration within its proved fuel
bound). -/
theorem tree_walker_preorder (tree : List (String × GitObject))
    (h : entriesOk tree = true) :
    runWalker (TreeWalker.new tree) = .ok (preorderEntries [] tree) := by
  have hok : framesOk [(tree, 0)] = true := by
    simp only [framesOk, List.drop_zero, Bool.and_eq_true]
    exact ⟨h, trivial⟩
  have h2 := runFuel_stateOutput (walkerBound (TreeWalker.new tree))
    [(tree, 0)] [] hok (Nat.le_refl _)
  show runFuel (walkerBound (TreeWalker.new tree)) ⟨[(tree, 0)], []⟩ = _
  rw [h2]
  simp [stateOutput, List.drop_zero]

/-- Witness for C5: over the spec's Scenario B tree
`root/{a.txt, dir/{b.txt, subdir/{c.txt}}}` the walker yields exactly the 5
entries `a.txt`, `dir`, `dir/b.txt`, `dir/subdir`, `dir/subdir/c.txt` in
that order and ends. -/
theorem tree_walker_preorder_witness :
    runWalker (TreeWalker.new exTree) = .ok
      [{ path := ["a.txt"], kind := .file,
         obj := .blob (some { is_binary := false }) },
       { path := ["dir"], kind := .directory,
         obj := .tree
           [("b.txt", .blob (some { is_binary := false })),
            ("subdir", .tree
              [("c.txt", .blob (some { is_binary := false }))])] },
       { path := ["dir", "b.txt"], kind := .file,
         obj := .blob (some { is_binary := false }) },
       { path := ["dir", "subdir"], kind := .directory,
         obj := .tree [("c.txt", .blob (some { is_binary := false }))] },
       { path := ["dir", "subdir", "c.txt"], kind := .file,
         obj := .blob (some { is_binary := false }) }] :=
  (tree_walker_preorder exTree (by decide)).trans (by rfl)

/-! ### Orchestrator lemmas -/

theorem processHunks_all_ok (db : PeopleDatabase) :
    ∀ (hs : List Hunk) (owners : CombinedTracking OwnershipScore),
    (∀ h ∈ hs, (db.find_by_signature h.sig).isOk = true) →
    ∃ t', processHunks db owners hs = .ok t' := by
  intro hs
  induction hs with
  | nil => intro owners _; exact ⟨owners, rfl⟩
  | cons h rest ih =>
    intro owners hall
    have h1 := hall h (List.mem_cons_self h rest)
    cases hf : db.find_by_signature h.sig with
    | error e => rw [hf] at h1; simp [Except.isOk, Except.toBool] at h1
    | ok person =>
      obtain ⟨t', ht'⟩ := ih
        (owners.track_person person (fun s => s.add_lines h.lines))
        (fun x hx => hall x (List.mem_cons_of_mem h hx))
      refine ⟨t', ?_⟩
      show (match db.find_by_signature h.sig with
        | .error e => Except.error e
        | .ok person => processHunks db
            (owners.track_person person (fun s => s.add_lines h.lines))
            rest) = _
      rw [hf]
      exact ht'

theorem processHunks_fail (db : PeopleDatabase) :
    ∀ (hs : List Hunk) (owners : CombinedTracking OwnershipScore),
    (∃ h ∈ hs, (db.find_by_signature h.sig).isOk = false) →
    ∃ em, processHunks db owners hs = .error (.unknownEmail em)
      ∧ (db.find_by_email em).isOk = false := by
  intro hs
  induction hs with
  | nil => intro owners h; simp at h
  | cons h rest ih =>
    intro owners hex
    cases hf : db.find_by_signature h.sig with
    | error e =>
      have he : e = .unknownEmail (h.sig.email.getD "") :=
        find_error_unknown db _ e hf
      refine ⟨h.sig.email.getD "", ?_, ?_⟩
      · show (match db.find_by_signature h.sig with
          | .error e => Except.error e
          | .ok person => processHunks db
              (owners.track_person person (fun s => s.add_lines h.lines))
              rest) = _
        rw [hf, he]
      · have hfe : db.find_by_email (h.sig.email.getD "") = .error e := hf
        rw [hfe]
        rfl
    | ok person =>
      obtain ⟨x, hx, hxf⟩ := hex
      rcases List.mem_cons.mp hx with rfl | hx2
      · rw [hf] at hxf; simp [Except.isOk, Except.toBool] at hxf
      · obtain ⟨em, hem, hem2⟩ := ih
          (owners.track_person person (fun s => s.add_lines h.lines))
          ⟨x, hx2, hxf⟩
        refine ⟨em, ?_, hem2⟩
        show (match db.find_by_signature h.sig with
          | .error e => Except.error e
          | .ok person => processHunks db
              (owners.track_person person (fun s => s.add_lines h.lines))
              rest) = _
        rw [hf]
        exact hem

theorem processEntry_ok (db : PeopleDatabase)
    (blame : List String → Except String (List Hunk))
    (owners : CombinedTracking OwnershipScore) (e : Entry)
    (hblob : e.kind = .file → e.blobGet ≠ none)
    (hblame : ∀ pth, (blame pth).isOk = true)
    (hall : ∀ h ∈ entryHunks blame e, (db.find_by_signature h.sig).isOk = true) :
    ∃ t', processEntry db blame owners e = .ok t' := by
  by_cases hk : e.kind = .file
  · cases hbg : e.blobGet with
    | none => exact absurd hbg (hblob hk)
    | some b =>
      by_cases hbin : b.is_binary = true
      · refine ⟨owners, ?_⟩
        simp [processEntry, hk, hbg, hbin]
      · cases hbl : blame e.path with
        | error g =>
          have := hblame e.path
          rw [hbl] at this
          simp [Except.isOk, Except.toBool] at this
        | ok hunks =>
          have hhunks : entryHunks blame e = hunks := by
            simp [entryHunks, hk, hbg, hbin, hbl]
          rw [hhunks] at hall
          obtain ⟨t', ht'⟩ := processHunks_all_ok db hunks owners hall
          refine ⟨t', ?_⟩
          simp [processEntry, hk, hbg, hbin, hbl, ht']
  · refine ⟨owners, ?_⟩
    simp [processEntry, hk]

theorem processEntry_fail (db : PeopleDatabase)
    (blame : List String → Except String (List Hunk))
    (owners : CombinedTracking OwnershipScore) (e : Entry)
    (hblob : e.kind = .file → e.blobGet ≠ none)
    (hblame : ∀ pth, (blame pth).isOk = true)
    (hex : ∃ h ∈ entryHunks blame e, (db.find_by_signature h.sig).isOk = false) :
    ∃ em, processEntry db blame owners e = .error (.err (.unknownEmail em))
      ∧ (db.find_by_email em).isOk = false := by
  by_cases hk : e.kind = .file
  · cases hbg : e.blobGet with
    | none => exact absurd hbg (hblob hk)
    | some b =>
      by_cases hbin : b.is_binary = true
      · exfalso
        have : entryHunks blame e = [] := by simp [entryHunks, hk, hbg, hbin]
        rw [this] at hex
        simp at hex
      · cases hbl : blame e.path with
        | error g =>
          have := hblame e.path
          rw [hbl] at this
          simp [Except.isOk, Except.toBool] at this
        | ok hunks =>
          have hhunks : entryHunks blame e = hunks := by
            simp [entryHunks, hk, hbg, hbin, hbl]
          rw [hhunks] at hex
          obtain ⟨em, hem, hem2⟩ := processHunks_fail db hunks owners hex
          refine ⟨em, ?_, hem2⟩
          simp [processEntry, hk, hbg, hbin, hbl, hem]
  · exfalso
    have : entryHunks blame e = [] := by simp [entryHunks, hk]
    rw [this] at hex
    simp at hex

theorem allHunks_cons (blame : List String → Except String (List Hunk))
    (e : Entry) (rest : List Entry) :
    allHunks blame (e :: rest) = entryHunks blame e ++ allHunks blame rest := by
  simp [allHunks]

theorem processEntries_ok (db : PeopleDatabase)
    (blame : List String → Except String (List Hunk)) :
    ∀ (entries : List Entry) (owners : CombinedTracking OwnershipScore),
    (∀ e ∈ entries, e.kind = .file → e.blobGet ≠ none) →
    (∀ pth, (blame pth).isOk = true) →
    (∀ h ∈ allHunks blame entries, (db.find_by_signature h.sig).isOk = true) →
    ∃ t', processEntries db blame owners entries = .ok t' := by
  intro entries
  induction entries with
  | nil => intro owners _ _ _; exact ⟨owners, rfl⟩
  | cons e rest ih =>
    intro owners hblob hblame hall
    obtain ⟨t1, ht1⟩ := processEntry_ok db blame owners e
      (hblob e (List.mem_cons_self e rest)) hblame
      (fun h hh => hall h (by
        rw [allHunks_cons]
        exact List.mem_append.mpr (Or.inl hh)))
    obtain ⟨t2, ht2⟩ := ih t1
      (fun x hx => hblob x (List.mem_cons_of_mem e hx)) hblame
      (fun h hh => hall h (by
        rw [allHunks_cons]
        exact List.mem_append.mpr (Or.inr hh)))
    refine ⟨t2, ?_⟩
    show (match processEntry db blame owners e with
      | .error f => Except.error f
      | .ok owners2 => processEntries db blame owners2 rest) = _
    rw [ht1]
    exact ht2

theorem processEntries_fail (db : PeopleDatabase)
    (blame : List String → Except String (List Hunk)) :
    ∀ (entries : List Entry) (owners : CombinedTracking OwnershipScore),
    (∀ e ∈ entries, e.kind = .file → e.blobGet ≠ none) →
    (∀ pth, (blame pth).isOk = true) →
    (∃ h ∈ allHunks blame entries, (db.find_by_signature h.sig).isOk = false) →
    ∃ em, processEntries db blame owners entries
        = .error (.err (.unknownEmail em))
      ∧ (db.find_by_email em).isOk = false := by
  intro entries
  induction entries with
  | nil => intro owners _ _ hex; simp [allHunks] at hex
  | cons e rest ih =>
    intro owners hblob hblame hex
    by_cases hfirst : ∃ h ∈ entryHunks blame e,
        (db.find_by_signature h.sig).isOk = false
    · obtain ⟨em, hem, hem2⟩ := processEntry_fail db blame owners e
        (hblob e (List.mem_cons_self e rest)) hblame hfirst
      refine ⟨em, ?_, hem2⟩
      show (match processEntry db blame owners e with
        | .error f => Except.error f
        | .ok owners2 => processEntries db blame owners2 rest) = _
      rw [hem]
    · have hallhead : ∀ h ∈ entryHunks blame e,
          (db.find_by_signature h.sig).isOk = true := by
        intro h hh
        cases hv : (db.find_by_signature h.sig).isOk with
        | false => exact absurd ⟨h, hh, hv⟩ hfirst
        | true => rfl
      obtain ⟨t1, ht1⟩ := processEntry_ok db blame owners e
        (hblob e (List.mem_cons_self e rest)) hblame hallhead
      have hrest : ∃ h ∈ allHunks blame rest,
          (db.find_by_signature h.sig).isOk = false := by
        obtain ⟨x, hx, hxf⟩ := hex
        rw [allHunks_cons] at hx
        rcases List.mem_append.mp hx with hx1 | hx2
        · exact absurd ⟨x, hx1, hxf⟩ hfirst
        · exact ⟨x, hx2, hxf⟩
      obtain ⟨em, hem, hem2⟩ := ih t1
        (fun x hx => hblob x (List.mem_cons_of_mem e hx)) hblame hrest
      refine ⟨em, ?_, hem2⟩
      show (match processEntry db blame owners e with
        | .error f => Except.error f
        | .ok owners2 => processEntries db blame owners2 rest) = _
      rw [ht1]
      exact hem

/-- C8: in a pass whose backend is healthy (traversal completes, every file
entry's blob is retrievable, every blame call succeeds), `calculate`
succeeds exactly when every hunk's author alias resolves; the moment any
hunk's alias is unresolvable, the whole pass returns `UnknownEmail` — no
per-hunk skip, and an error return carries no statistics at all. -/
theorem calculate_abort_policy (tree : List (String × GitObject))
    (db : PeopleDatabase)
    (blame : List String → Except String (List Hunk)) (entries : List Entry)
    (hwalk : runWalker (TreeWalker.new tree) = .ok entries)
    (hblob : ∀ e ∈ entries, e.kind = .file → e.blobGet ≠ none)
    (hblame : ∀ pth, (blame pth).isOk = true) :
    ((∀ h ∈ allHunks blame entries,
        (db.find_by_signature h.sig).isOk = true) →
      ∃ stats, calculate tree db blame = .ok stats)
    ∧ ((∃ h ∈ allHunks blame entries,
        (db.find_by_signature h.sig).isOk = false) →
      ∃ em, calculate tree db blame = .error (.err (.unknownEmail em))
        ∧ (db.find_by_email em).isOk = false) := by
  constructor
  · intro hall
    obtain ⟨t', ht'⟩ := processEntries_ok db blame entries
      CombinedTracking.new hblob hblame hall
    refine ⟨OwnershipStatistics.from_tracking t', ?_⟩
    show (match runWalker (TreeWalker.new tree) with
      | .error msg => Except.error (CalcFailure.panicked msg)
      | .ok entries => match processEntries db blame CombinedTracking.new entries with
        | .error f => Except.error f
        | .ok owners => Except.ok (OwnershipStatistics.from_tracking owners))
      = Except.ok (OwnershipStatistics.from_tracking t')
    rw [hwalk]
    simp only [ht']
  · intro hex
    obtain ⟨em, hem, hem2⟩ := processEntries_fail db blame entries
      CombinedTracking.new hblob hblame hex
    refine ⟨em, ?_, hem2⟩
    show (match runWalker (TreeWalker.new tree) with
      | .error msg => Except.error (CalcFailure.panicked msg)
      | .ok entries => match processEntries db blame CombinedTracking.new entries with
        | .error f => Except.error f
        | .ok owners => Except.ok (OwnershipStatistics.from_tracking owners))
      = Except.error (CalcFailure.err (TriviaError.unknownEmail em))
    rw [hwalk]
    simp only [hem]

/-- Witness for C8: with the registry `[janeW]` over the Scenario B tree, a
blame backend attributing everything to Jane's alias makes the pass succeed,
and one attributing a file to an unregistered alias makes the whole pass
fail with `UnknownEmail`. -/
theorem calculate_abort_policy_witness :
    (∃ stats, calculate exTree dbJane blameJane = .ok stats)
    ∧ (∃ em, calculate exTree dbJane blameUnknown
          = .error (.err (.unknownEmail em))
        ∧ (dbJane.find_by_email em).isOk = false) :=
  ⟨(calculate_abort_policy exTree dbJane blameJane exEntries rfl (by decide)
      (fun pth => rfl)).1 (by decide),
   (calculate_abort_policy exTree dbJane blameUnknown exEntries rfl
      (by decide) (fun pth => rfl)).2 (by decide)⟩

/-- Counterexample to C9 as stated: two backend failures during a
calculation pass are not surfaced as returned errors — a file entry whose
content object cannot be retrieved hits `unwrap()` on `None`, and a tree
entry that is neither a tree nor a blob hits the walker's `unreachable!`;
both abort the pass with a panic. -/
theorem backend_failure_panics_counterexample :
    calculate [("a.txt", .blob none)] PeopleDatabase.new blameJane
      = .error (.panicked "called Option::unwrap on a None value")
    ∧ calculate [("sub", .other)] PeopleDatabase.new blameJane
      = .error
          (.panicked "Tree entries should always be either Trees or Blobs") :=
  ⟨rfl, rfl⟩

/-- C9 amended: failures returned by the backend's blame call propagate
unchanged (`?`) as returned errors, and a per-entry failure aborts the whole
loop with that same failure (nothing is suppressed); but two backend
failures panic instead of returning: a file entry whose content object
cannot be retrieved (`unwrap` on `None`), and a tree entry that is neither
a tree nor a blob (`unreachable!` in `Entry::new`, surfacing as a traversal
panic). -/
theorem backend_failure_surfacing (tree : List (String × GitObject))
    (db : PeopleDatabase)
    (blame : List String → Except String (List Hunk)) :
    (∀ msg, runWalker (TreeWalker.new tree) = .error msg →
        calculate tree db blame = .error (.panicked msg))
    ∧ (∀ (owners : CombinedTracking OwnershipScore) (e : Entry),
        e.kind = .file → e.blobGet = none →
        processEntry db blame owners e
          = .error (.panicked "called Option::unwrap on a None value"))
    ∧ (∀ (owners : CombinedTracking OwnershipScore) (e : Entry)
        (b : Blob) (g : String),
        e.kind = .file → e.blobGet = some b → b.is_binary = false →
        blame e.path = .error g →
        processEntry db blame owners e = .error (.err (.gitError g)))
    ∧ (∀ (owners : CombinedTracking OwnershipScore) (e : Entry)
        (rest : List Entry) (f : CalcFailure),
        processEntry db blame owners e = .error f →
        processEntries db blame owners (e :: rest) = .error f) := by
  refine ⟨?_, ?_, ?_, ?_⟩
  · intro msg h
    show (match runWalker (TreeWalker.new tree) with
      | .error msg => Except.error (CalcFailure.panicked msg)
      | .ok entries =>
        match processEntries db blame CombinedTracking.new entries with
        | .error f => Except.error f
        | .ok owners => Except.ok (OwnershipStatistics.from_tracking owners))
      = Except.error (CalcFailure.panicked msg)
    rw [h]
  · intro owners e hk hbg
    simp [processEntry, hk, hbg]
  · intro owners e b g hk hbg hbin hbl
    simp [processEntry, hk, hbg, hbin, hbl]
  · intro owners e rest f h
    show (match processEntry db blame owners e with
      | .error f => Except.error f
      | .ok owners2 => processEntries db blame owners2 rest)
      = Except.error f
    rw [h]

/-- Witness for the amended C9 at concrete inputs: a missing blob panics, a
blame error is returned unchanged as a git error, a panicking entry aborts
the loop with the same failure, and a foreign-kind tree entry panics the
whole calculation. -/
theorem backend_failure_surfacing_witness :
    processEntry dbJane blameFail CombinedTracking.new
        { path := ["a.txt"], kind := .file, obj := .blob none }
      = .error (.panicked "called Option::unwrap on a None value")
    ∧ processEntry dbJane blameFail CombinedTracking.new
        { path := ["a.txt"], kind := .file,
          obj := .blob (some { is_binary := false }) }
      = .error (.err (.gitError "object not found"))
    ∧ processEntries dbJane blameFail CombinedTracking.new
        [{ path := ["a.txt"], kind := .file, obj := .blob none }]
      = .error (.panicked "called Option::unwrap on a None value")
    ∧ calculate [("sub", .other)] dbJane blameFail
      = .error
          (.panicked "Tree entries should always be either Trees or Blobs") :=
  ⟨(backend_failure_surfacing [] dbJane blameFail).2.1 CombinedTracking.new
      { path := ["a.txt"], kind := .file, obj := .blob none } rfl rfl,
   (backend_failure_surfacing [] dbJane blameFail).2.2.1 CombinedTracking.new
      { path := ["a.txt"], kind := .file,
        obj := .blob (some { is_binary := false }) }
      { is_binary := false } "object not found" rfl rfl rfl rfl,
   (backend_failure_surfacing [] dbJane blameFail).2.2.2 CombinedTracking.new
      { path := ["a.txt"], kind := .file, obj := .blob none } [] _
      ((backend_failure_surfacing [] dbJane blameFail).2.1 CombinedTracking.new
        { path := ["a.txt"], kind := .file, obj := .blob none } rfl rfl),
   (backend_failure_surfacing [("sub", .other)] dbJane blameFail).1
      "Tree entries should always be either Trees or Blobs" (by rfl)⟩

/-! ### Configuration builder lemmas -/

theorem mem_insertSorted (p x : Person) :
    ∀ l : List Person, x ∈ insertSorted p l ↔ x = p ∨ x ∈ l := by
  intro l
  induction l with
  | nil => simp [insertSorted]
  | cons q rest ih =>
    unfold insertSorted
    by_cases hle : strLe p.name q.name = true
    · rw [if_pos hle]
      exact List.mem_cons
    · rw [if_neg hle]
      rw [List.mem_cons, ih, List.mem_cons]
      tauto

theorem mem_sortPeople (x : Person) :
    ∀ l : List Person, x ∈ sortPeople l ↔ x ∈ l := by
  intro l
  induction l with
  | nil => simp [sortPeople]
  | cons q rest ih =>
    unfold sortPeople
    rw [mem_insertSorted q x (sortPeople rest), ih]
    exact (List.mem_cons).symm

theorem updateEntry_mem {K V : Type} (eq : K → K → Bool) (l : List (K × V))
    (k : K) (d : V) (f : V → V) (pr' : K × V)
    (h : pr' ∈ updateEntry eq l k d f) :
    (∃ pr ∈ l, pr' = pr ∨ (eq pr.1 k = true ∧ pr' = (pr.1, f pr.2)))
      ∨ pr' = (k, f d) := by
  unfold updateEntry at h
  by_cases hany : (l.any fun pr => eq pr.1 k) = true
  · rw [if_pos hany] at h
    obtain ⟨pr, hpr, heq⟩ := List.mem_map.mp h
    by_cases hc : (eq pr.1 k) = true
    · rw [if_pos hc] at heq
      exact Or.inl ⟨pr, hpr, Or.inr ⟨hc, heq.symm⟩⟩
    · rw [if_neg hc] at heq
      exact Or.inl ⟨pr, hpr, Or.inl heq.symm⟩
  · rw [if_neg hany] at h
    rcases List.mem_append.mp h with h1 | h1
    · exact Or.inl ⟨pr', h1, Or.inl rfl⟩
    · exact Or.inr (List.mem_singleton.mp h1)

theorem add_email_has_other (p : Person) (e em : String) (hne : em ≠ e) :
    (p.add_email e).has_email em = p.has_email em := by
  unfold Person.add_email
  by_cases hc : p.emails.contains e
  · rw [if_pos hc]
  · rw [if_neg hc]
    simp [Person.has_email, hne]

theorem add_author_no_email (b : ConfigurationBuilder) (r : Signature)
    (email : String) (hr : r.email = some email → r.name = none)
    (hinv : ∀ pr ∈ b.people_by_name, pr.2.has_email email = false) :
    ∀ pr ∈ (b.add_author r).people_by_name,
      pr.2.has_email email = false := by
  cases hre : r.email with
  | none =>
    have hstep : b.add_author r = b := by
      simp [ConfigurationBuilder.add_author, hre]
    rw [hstep]
    exact hinv
  | some e =>
    by_cases hseen : b.seen_emails.contains e = true
    · have hseen2 : e ∈ b.seen_emails := by simpa using hseen
      have hstep : b.add_author r = b := by
        simp [ConfigurationBuilder.add_author, hre, hseen2]
      rw [hstep]
      exact hinv
    · have hseen2 : e ∉ b.seen_emails := by simpa using hseen
      cases hn : r.name with
      | none =>
        have hstep : b.add_author r = b := by
          simp [ConfigurationBuilder.add_author, hre, hseen2, hn]
        rw [hstep]
        exact hinv
      | some n =>
        have hstep : (b.add_author r).people_by_name
            = updateEntry (fun a b => a == b) b.people_by_name n
                (Person.new n) (fun p => p.add_email e) := by
          simp [ConfigurationBuilder.add_author, hre, hseen2, hn]
        rw [hstep]
        intro pr hpr
        have hne : email ≠ e := by
          intro hcontra
          subst hcontra
          rw [hr hre] at hn
          cases hn
        rcases updateEntry_mem _ _ _ _ _ pr hpr
          with ⟨pr0, hpr0, h1 | ⟨hm, h1⟩⟩ | h1
        · rw [h1]; exact hinv pr0 hpr0
        · rw [h1]
          show (pr0.2.add_email e).has_email email = false
          rw [add_email_has_other pr0.2 e email hne]
          exact hinv pr0 hpr0
        · rw [h1]
          show ((Person.new n).add_email e).has_email email = false
          rw [add_email_has_other (Person.new n) e email hne]
          rfl

theorem buildFold_no_email (email : String) :
    ∀ (records : List Signature) (b : ConfigurationBuilder),
    (∀ r ∈ records, r.email = some email → r.name = none) →
    (∀ pr ∈ b.people_by_name, pr.2.has_email email = false) →
    ∀ pr ∈ (records.foldl ConfigurationBuilder.add_author b).people_by_name,
      pr.2.has_email email = false := by
  intro records
  induction records with
  | nil => intro b _ hinv; exact hinv
  | cons r rest ih =>
    intro b hcoh hinv
    exact ih (b.add_author r)
      (fun x hx => hcoh x (List.mem_cons_of_mem r hx))
      (add_author_no_email b r email
        (hcoh r (List.mem_cons_self r rest)) hinv)

/-- Counterexample to C6: an alias that arrives only in a record with no
usable display name simply disappears — the fresh build over one nameless
record `(None, "x@y.com")` produces an empty registry, with no synthetic
person named after the alias (`add_author` drops nameless records and
`into_configuration` has no second pass). -/
theorem no_name_alias_counterexample :
    (buildFresh "d" recordsNoName).into_configuration
      = .ok { generated_at_sha := "d", people := [] } := rfl

/-- C6 amended: for a fresh build, an alias that appears only in records
without a usable display name is silently dropped: no synthetic person is
created, and no person in the resulting configuration carries that alias. -/
theorem no_name_alias_dropped (records : List Signature) (sha email : String)
    (honly : ∀ r ∈ records, r.email = some email → r.name = none) :
    ∀ cfg, (buildFresh sha records).into_configuration = .ok cfg →
      ∀ p ∈ cfg.people, p.has_email email = false := by
  intro cfg hcfg p hp
  have hinv := buildFold_no_email email records
    (ConfigurationBuilder.new.set_latest_commit_sha sha) honly
    (by intro pr hpr; cases hpr)
  unfold ConfigurationBuilder.into_configuration at hcfg
  cases hsha : (buildFresh sha records).generated_at_sha with
  | none => rw [hsha] at hcfg; cases hcfg
  | some s =>
    rw [hsha] at hcfg
    simp only [Except.ok.injEq] at hcfg
    rw [← hcfg] at hp
    simp only at hp
    rw [mem_sortPeople] at hp
    obtain ⟨pr, hpr, hpr2⟩ := List.mem_map.mp hp
    rw [← hpr2]
    exact hinv pr hpr

/-- Witness for the amended C6: in the build over `recordsCoherent` (where
`ghost@x.com` only ever appears in a nameless record) the resulting Jane
entry does not carry the ghost alias. -/
theorem no_name_alias_dropped_witness :
    ({ name := "Jane Doe", emails := ["jane2@x.com", "jane@x.com"],
       team_name := none } : Person).has_email "ghost@x.com" = false :=
  no_name_alias_dropped recordsCoherent "d" "ghost@x.com" (by decide)
    { generated_at_sha := "d",
      people :=
        [{ name := "Jane Doe", emails := ["jane2@x.com", "jane@x.com"],
           team_name := none },
         { name := "John Doe", emails := ["john@x.com"],
           team_name := none }] }
    (by rfl) _ (by decide)

/-! ### Seen-set refinement lemmas (C7) -/

theorem add_email_has_self (p : Person) (e : String) :
    (p.add_email e).has_email e = true := by
  unfold Person.add_email
  by_cases hc : p.emails.contains e = true
  · rw [if_pos hc]; exact hc
  · rw [if_neg hc]
    simp [Person.has_email]

theorem add_email_of_has (p : Person) (e : String)
    (h : p.has_email e = true) : p.add_email e = p := by
  unfold Person.add_email
  rw [if_pos (show p.emails.contains e = true from h)]

theorem updateEntry_mem_image {K V : Type} (eq : K → K → Bool)
    (l : List (K × V)) (k : K) (d : V) (f : V → V) (pr : K × V)
    (h : pr ∈ l) :
    pr ∈ updateEntry eq l k d f
      ∨ (pr.1, f pr.2) ∈ updateEntry eq l k d f := by
  unfold updateEntry
  by_cases hany : (l.any fun q => eq q.1 k) = true
  · rw [if_pos hany]
    by_cases hc : (eq pr.1 k) = true
    · exact Or.inr (List.mem_map.mpr ⟨pr, h, by simp [hc]⟩)
    · exact Or.inl (List.mem_map.mpr ⟨pr, h, by simp [hc]⟩)
  · rw [if_neg hany]
    exact Or.inl (List.mem_append.mpr (Or.inl h))

theorem updateEntry_pairwise_str {V : Type} (l : List (String × V))
    (k : String) (d : V) (f : V → V)
    (hd : l.Pairwise (fun a b => a.1 ≠ b.1)) :
    (updateEntry (fun a b => a == b) l k d f).Pairwise
      (fun a b => a.1 ≠ b.1) := by
  unfold updateEntry
  by_cases hany : (l.any fun q => q.1 == k) = true
  · rw [if_pos hany, List.pairwise_map]
    refine hd.imp ?_
    intro a b hab
    have ha : ((if a.1 == k then (a.1, f a.2) else a)).1 = a.1 := by
      by_cases h : (a.1 == k) = true <;> simp [h]
    have hb : ((if b.1 == k then (b.1, f b.2) else b)).1 = b.1 := by
      by_cases h : (b.1 == k) = true <;> simp [h]
    rw [ha, hb]
    exact hab
  · rw [if_neg hany, List.pairwise_append]
    refine ⟨hd, by simp, ?_⟩
    intro a ha b hb
    simp only [List.mem_singleton] at hb
    subst hb
    intro hak
    rw [List.any_eq_true] at hany
    exact hany ⟨a, ha, by simp [hak]⟩

theorem updateEntry_exists_new (l : List (String × Person))
    (k e : String) :
    ∃ pr ∈ updateEntry (fun a b => a == b) l k (Person.new k)
        (fun p => p.add_email e),
      pr.1 = k ∧ pr.2.has_email e = true := by
  have h := updateEntry_find_self (fun s => s) l k (Person.new k)
    (fun p => p.add_email e)
  rcases hf : (updateEntry (fun a b => a == b) l k (Person.new k)
      (fun p => p.add_email e)).find? (fun pr => pr.1 == k) with hnone | pr
  · rw [hf] at h; simp at h
  · rw [hf] at h
    simp only [Option.map_some', Option.some.injEq] at h
    refine ⟨pr, List.mem_of_find?_eq_some hf, ?_, ?_⟩
    · have := List.find?_some hf
      simpa using this
    · rw [h]
      exact add_email_has_self _ e

theorem updateEntry_id_of_has (l : List (String × Person)) (k e : String)
    (hd : l.Pairwise (fun a b => a.1 ≠ b.1))
    (hex : ∃ pr ∈ l, pr.1 = k ∧ pr.2.has_email e = true) :
    updateEntry (fun a b => a == b) l k (Person.new k)
      (fun p => p.add_email e) = l := by
  obtain ⟨pr, hpr, hk, hhas⟩ := hex
  unfold updateEntry
  have hany : (l.any fun q => q.1 == k) = true :=
    List.any_eq_true.mpr ⟨pr, hpr, by simp [hk]⟩
  rw [if_pos hany]
  have hsym : Symmetric (fun a b : String × Person => a.1 ≠ b.1) :=
    fun a b h => fun heq => h heq.symm
  calc (l.map fun q => if q.1 == k then (q.1, q.2.add_email e) else q)
      = l.map id := by
        refine List.map_congr_left ?_
        intro x hx
        by_cases hxk : (x.1 == k) = true
        · have hx1 : x.1 = k := by simpa using hxk
          have hxpr : x = pr := by
            by_contra hne
            have := hd.forall hsym hx hpr hne
            exact this (by rw [hx1, hk])
          rw [if_pos hxk, hxpr, add_email_of_has pr.2 e hhas]
          rfl
        · rw [if_neg hxk]
          rfl
    _ = l := List.map_id l

theorem add_author_unseen_step (L : List Signature) (hco : nameCoherent L)
    (r : Signature) (hr : r ∈ L) (b b2 : ConfigurationBuilder)
    (hInv : BuilderInv L b)
    (hpe : b2.people_by_name = b.people_by_name) :
    (b2.add_author_unseen r).people_by_name
        = (b.add_author r).people_by_name
    ∧ BuilderInv L (b.add_author r) := by
  obtain ⟨hI1, hI2, hI3⟩ := hInv
  cases hre : r.email with
  | none =>
    have h1 : b.add_author r = b := by
      simp [ConfigurationBuilder.add_author, hre]
    have h2 : b2.add_author_unseen r = b2 := by
      simp [ConfigurationBuilder.add_author_unseen, hre]
    rw [h1, h2, hpe]
    exact ⟨rfl, hI1, hI2, hI3⟩
  | some e =>
    cases hn : r.name with
    | none =>
      have h2 : b2.add_author_unseen r = b2 := by
        simp [ConfigurationBuilder.add_author_unseen, hre, hn]
      by_cases hseen : e ∈ b.seen_emails
      · have h1 : b.add_author r = b := by
          simp [ConfigurationBuilder.add_author, hre, hseen]
        rw [h1, h2, hpe]
        exact ⟨rfl, hI1, hI2, hI3⟩
      · have h1 : b.add_author r = b := by
          simp [ConfigurationBuilder.add_author, hre, hseen, hn]
        rw [h1, h2, hpe]
        exact ⟨rfl, hI1, hI2, hI3⟩
    | some n =>
      have h2 : (b2.add_author_unseen r).people_by_name
          = updateEntry (fun a b => a == b) b.people_by_name n
              (Person.new n) (fun p => p.add_email e) := by
        have h3 : (b2.add_author_unseen r).people_by_name
            = updateEntry (fun a b => a == b) b2.people_by_name n
                (Person.new n) (fun p => p.add_email e) := by
          simp [ConfigurationBuilder.add_author_unseen, hre, hn]
        rw [h3, hpe]
      by_cases hseen : e ∈ b.seen_emails
      · -- with the seen set: skipped; without: a no-op update
        have h1 : b.add_author r = b := by
          simp [ConfigurationBuilder.add_author, hre, hseen]
        obtain ⟨pr, hpr, hhas⟩ := (hI1 e).mp hseen
        obtain ⟨r0, hr0, hr0n, hr0e⟩ := hI2 pr hpr e hhas
        have hnames : n = pr.1 := by
          have h5 := hco r hr r0 hr0 (by rw [hre, hr0e])
            (by rw [hre]; exact fun hc => Option.noConfusion hc)
            (by rw [hn]; exact fun hc => Option.noConfusion hc)
            (by rw [hr0n]; exact fun hc => Option.noConfusion hc)
          rw [hn, hr0n] at h5
          injection h5
        have hid := updateEntry_id_of_has b.people_by_name n e hI3
          ⟨pr, hpr, hnames.symm, hhas⟩
        rw [h1, h2, hid]
        exact ⟨rfl, hI1, hI2, hI3⟩
      · -- unseen email: both perform the same update
        have h1people : (b.add_author r).people_by_name
            = updateEntry (fun a b => a == b) b.people_by_name n
                (Person.new n) (fun p => p.add_email e) := by
          simp [ConfigurationBuilder.add_author, hre, hseen, hn]
        have h1seen : (b.add_author r).seen_emails = e :: b.seen_emails := by
          simp [ConfigurationBuilder.add_author, hre, hseen, hn]
        refine ⟨by rw [h2, h1people], ?_, ?_, ?_⟩
        · -- seen set still matches the indexed emails
          intro e'
          rw [h1seen, h1people, List.mem_cons]
          constructor
          · rintro (rfl | he')
            · obtain ⟨pr, hpr, hk, hhas⟩ :=
                updateEntry_exists_new b.people_by_name n e'
              exact ⟨pr, hpr, hhas⟩
            · obtain ⟨pr, hpr, hhas⟩ := (hI1 e').mp he'
              rcases updateEntry_mem_image (fun a b => a == b)
                  b.people_by_name n (Person.new n)
                  (fun p => p.add_email e) pr hpr with h4 | h4
              · exact ⟨pr, h4, hhas⟩
              · by_cases hee : e' = e
                · subst hee
                  exact ⟨(pr.1, pr.2.add_email e'), h4,
                    add_email_has_self pr.2 e'⟩
                · refine ⟨(pr.1, pr.2.add_email e), h4, ?_⟩
                  show (pr.2.add_email e).has_email e' = true
                  rw [add_email_has_other pr.2 e e' hee]
                  exact hhas
          · rintro ⟨pr', hpr', hhas'⟩
            rcases updateEntry_mem _ _ _ _ _ pr' hpr'
              with ⟨pr0, hpr0, h4 | ⟨hm, h4⟩⟩ | h4
            · exact Or.inr ((hI1 e').mpr ⟨pr0, hpr0, h4 ▸ hhas'⟩)
            · by_cases hee : e' = e
              · exact Or.inl hee
              · refine Or.inr ((hI1 e').mpr ⟨pr0, hpr0, ?_⟩)
                rw [h4] at hhas'
                have : (pr0.2.add_email e).has_email e' = true := hhas'
                rwa [add_email_has_other pr0.2 e e' hee] at this
            · by_cases hee : e' = e
              · exact Or.inl hee
              · exfalso
                rw [h4] at hhas'
                have : ((Person.new n).add_email e).has_email e' = true :=
                  hhas'
                rw [add_email_has_other (Person.new n) e e' hee] at this
                exact absurd this (by simp [Person.new, Person.has_email])
        · -- every indexed pair still traces back to a record of L
          intro pr' hpr' e' hhas'
          rw [h1people] at hpr'
          rcases updateEntry_mem _ _ _ _ _ pr' hpr'
            with ⟨pr0, hpr0, h4 | ⟨hm, h4⟩⟩ | h4
          · subst h4
            exact hI2 _ hpr0 e' hhas'
          · rw [h4] at hhas' ⊢
            by_cases hee : e' = e
            · subst hee
              have hkey : pr0.1 = n := by simpa using hm
              exact ⟨r, hr, by rw [hn, hkey], by rw [hre]⟩
            · have : (pr0.2.add_email e).has_email e' = true := hhas'
              rw [add_email_has_other pr0.2 e e' hee] at this
              exact hI2 pr0 hpr0 e' this
          · rw [h4] at hhas' ⊢
            by_cases hee : e' = e
            · subst hee
              exact ⟨r, hr, by rw [hn], by rw [hre]⟩
            · exfalso
              have : ((Person.new n).add_email e).has_email e' = true :=
                hhas'
              rw [add_email_has_other (Person.new n) e e' hee] at this
              exact absurd this (by simp [Person.new, Person.has_email])
        · -- distinct keys are preserved
          rw [h1people]
          exact updateEntry_pairwise_str b.people_by_name n (Person.new n)
            (fun p => p.add_email e) hI3

theorem builder_fold_agree (L : List Signature) (hco : nameCoherent L) :
    ∀ (suffix : List Signature), (∀ r ∈ suffix, r ∈ L) →
    ∀ (b b2 : ConfigurationBuilder), BuilderInv L b →
    b2.people_by_name = b.people_by_name →
    (suffix.foldl ConfigurationBuilder.add_author_unseen b2).people_by_name
      = (suffix.foldl ConfigurationBuilder.add_author b).people_by_name := by
  intro suffix
  induction suffix with
  | nil => intro _ b b2 _ hpe; exact hpe
  | cons r rest ih =>
    intro hsub b b2 hInv hpe
    obtain ⟨hstep, hInv'⟩ := add_author_unseen_step L hco r
      (hsub r (List.mem_cons_self r rest)) b b2 hInv hpe
    exact ih (fun x hx => hsub x (List.mem_cons_of_mem r hx))
      (b.add_author r) (b2.add_author_unseen r) hInv' hstep

theorem add_author_sha (b : ConfigurationBuilder) (r : Signature) :
    (b.add_author r).generated_at_sha = b.generated_at_sha := by
  unfold ConfigurationBuilder.add_author
  cases r.email with
  | none => rfl
  | some e =>
    by_cases hseen : e ∈ b.seen_emails
    · simp [hseen]
    · cases r.name with
      | none => simp [hseen]
      | some n => simp [hseen]

theorem add_author_unseen_sha (b : ConfigurationBuilder) (r : Signature) :
    (b.add_author_unseen r).generated_at_sha = b.generated_at_sha := by
  unfold ConfigurationBuilder.add_author_unseen
  cases r.email with
  | none => rfl
  | some e =>
    cases r.name with
    | none => rfl
    | some n => rfl

theorem foldl_add_author_sha : ∀ (records : List Signature)
    (b : ConfigurationBuilder),
    (records.foldl ConfigurationBuilder.add_author b).generated_at_sha
      = b.generated_at_sha := by
  intro records
  induction records with
  | nil => intro b; rfl
  | cons r rest ih =>
    intro b
    rw [List.foldl_cons, ih, add_author_sha]

theorem foldl_add_author_unseen_sha : ∀ (records : List Signature)
    (b : ConfigurationBuilder),
    (records.foldl ConfigurationBuilder.add_author_unseen b).generated_at_sha
      = b.generated_at_sha := by
  intro records
  induction records with
  | nil => intro b; rfl
  | cons r rest ih =>
    intro b
    rw [List.foldl_cons, ih, add_author_unseen_sha]

/-- Counterexample to C7 as stated: over the record sequence
`[("A", e), ("B", e)]` — the same alias under two names — the builder with
the seen-alias set keeps the alias on A only, while the builder with the
deduplication removed also attaches it to B: the final configurations
differ, so the seen set is a correctness guard, not a pure speed
optimization. -/
theorem seen_emails_counterexample :
    (buildFresh "d" recordsTwoNames).into_configuration
      = .ok { generated_at_sha := "d",
              people := [{ name := "A", emails := ["e@x.com"],
                           team_name := none }] }
    ∧ (buildFreshUnseen "d" recordsTwoNames).into_configuration
      = .ok { generated_at_sha := "d",
              people := [{ name := "A", emails := ["e@x.com"],
                           team_name := none },
                         { name := "B", emails := ["e@x.com"],
                           team_name := none }] }
    ∧ (buildFresh "d" recordsTwoNames).into_configuration.toOption
      ≠ (buildFreshUnseen "d" recordsTwoNames).into_configuration.toOption :=
  ⟨rfl, rfl, by decide⟩

/-- C7 amended: the seen-alias set is behavior-preserving only on record
sequences in which every alias appears under at most one usable display
name; under that coherence condition the builder with the deduplication
removed produces exactly the same person map and final configuration. -/
theorem seen_emails_refinement (records : List Signature) (sha : String)
    (hco : nameCoherent records) :
    (buildFreshUnseen sha records).people_by_name
      = (buildFresh sha records).people_by_name
    ∧ (buildFreshUnseen sha records).into_configuration
      = (buildFresh sha records).into_configuration := by
  have hInv0 : BuilderInv records
      (ConfigurationBuilder.new.set_latest_commit_sha sha) := by
    refine ⟨?_, ?_, ?_⟩
    · intro e
      constructor
      · intro h; cases h
      · rintro ⟨pr, hpr, -⟩; cases hpr
    · intro pr hpr; cases hpr
    · exact List.Pairwise.nil
  have hpeople := builder_fold_agree records hco records (fun r h => h)
    (ConfigurationBuilder.new.set_latest_commit_sha sha)
    (ConfigurationBuilder.new.set_latest_commit_sha sha) hInv0 rfl
  refine ⟨hpeople, ?_⟩
  unfold ConfigurationBuilder.into_configuration
  have hs1 : (buildFresh sha records).generated_at_sha = some sha :=
    foldl_add_author_sha records _
  have hs2 : (buildFreshUnseen sha records).generated_at_sha = some sha :=
    foldl_add_author_unseen_sha records _
  rw [hs1, hs2]
  have hp : (buildFreshUnseen sha records).people_by_name
      = (buildFresh sha records).people_by_name := hpeople
  rw [hp]

/-- Witness for the amended C7: over `recordsCoherent` (every alias under a
single name) the two builders produce identical configurations. -/
theorem seen_emails_refinement_witness :
    (buildFreshUnseen "d" recordsCoherent).into_configuration
      = (buildFresh "d" recordsCoherent).into_configuration :=
  (seen_emails_refinement recordsCoherent "d" (by decide)).2

end GitTrivia
